import Mathlib

/-!
Verification of the go-rison codec (github.com/sakura-internet/go-rison).

The development shallowly embeds the library's decoder (`decoder.go`), the
encoder (`encoder.go`), the error model and its English rendering
(`errors.go`, `errtype/errtype.go`) and the URI quoting helper
(`quote.go` / `QuoteString`).  Go byte strings are modelled as `List Nat`
(each element a byte value), machine integers as `Int`/`Nat`.

Where the repository delegates to the Go standard library
(`encoding/json` number formatting, `unicode/utf8` validation,
`net/url` query escaping) the standard library's documented behaviour is
modelled by explicit executable definitions; each such definition carries a
comment naming the library function it models.

The error-kind layer of the decoder (which `errtype.ErrType` a failing parse
reports) is pinned by `errors.go`, `errtype/errtype.go` and the tests; the
decoder revision that constructs these typed errors is not part of the
snapshot, so those constructions are modelled from the spec and are marked
`Modelled from the spec:` below.
-/

namespace Rison

/-- Bytes of an ASCII Lean string literal (used for fixed message texts). -/
def strB (s : String) : List Nat := s.data.map Char.toNat

/-- Source `notIDChar` constant: the byte set ` '!:(),*@$`. -/
def notIDChar : List Nat := [0x20, 0x27, 0x21, 0x3A, 0x28, 0x29, 0x2C, 0x2A, 0x40, 0x24]

/-- Source `notIDStart` constant: `notIDChar` plus digits and `-`. -/
def notIDStart : List Nat :=
  notIDChar ++ [0x30, 0x31, 0x32, 0x33, 0x34, 0x35, 0x36, 0x37, 0x38, 0x39, 0x2D]

/-- Rison mode (`Mode` in the source): full Rison, O-Rison, A-Rison. -/
inductive Mode
| Rison
| ORison
| ARison
deriving DecidableEq, Repr

/-- Error kinds, from `errtype/errtype.go`. -/
inductive ErrType
| Internal
| Encoding
| EmptyString
| UnmatchedPair
| MissingCharacter
| MissingCharacterAfterEscape
| ExtraCharacter
| ExtraCharacterAfterRison
| InvalidLiteral
| InvalidCharacter
| InvalidTypeOfObjectKey
| InvalidStringEscape
| InvalidNumber
| InvalidLargeExp
deriving DecidableEq, Repr

/-- `ParseError` of `errors.go`: kind, formatting arguments (each a byte
string; a `%c` argument is stored as a one-byte string), the source bytes and
the position.  The `Child` field is omitted: `ErrorInLang` does not render it
(the rendering of the child is commented out in `errors.go`), and no settled
claim observes it; the spec itself (sec. 9) records the child-wrapping policy
as an open question. -/
structure PErr where
  typ : ErrType
  args : List (List Nat)
  src : List Nat
  pos : Int
deriving DecidableEq, Repr

/-- Source `substr` (decoder.go): clamped substring with Go `int` offsets;
a negative length counts from the end. -/
def substrB (str : List Nat) (o n : Int) : List Nat :=
  if str.length = 0 then []
  else
    let s : Int := str.length
    let l : Int := if o < 0 then 0 else o
    let r0 : Int := if n < 0 then s + n else o + n
    let r : Int := if s < r0 then s else r0
    if r ≤ l then []
    else (str.drop l.toNat).take (r - l).toNat

/-- Source `substrLimited` (decoder.go): shifts a negative offset into the
length before clamping. -/
def substrLimitedB (str : List Nat) (o n : Int) : List Nat :=
  let o' : Int := if o < 0 then 0 else o
  let n1 : Int := if o < 0 then n + o else n
  let n' : Int := if n1 < 0 then 0 else n1
  substrB str o' n'

/-- Decimal digit values of a natural number, least significant first; the
first argument is fuel (the value itself always suffices, since the value
shrinks by a factor of ten each step). -/
def natDecAux : Nat → Nat → List Nat
| 0, _ => []
| _ + 1, 0 => []
| fuel + 1, n + 1 => ((n + 1) % 10) :: natDecAux fuel ((n + 1) / 10)

/-- Decimal digits of a natural number, as ASCII bytes (Go `%d` on a
non-negative value). -/
def natDecB (x : Nat) : List Nat :=
  if x = 0 then [0x30] else (natDecAux x x).reverse.map (· + 0x30)

/-- Decimal rendering of a Go `int`, as ASCII bytes. -/
def intDecB (x : Int) : List Nat :=
  if x < 0 then 0x2D :: natDecB x.natAbs else natDecB x.natAbs

/-- Argument access: Go `fmt.Sprintf` consumes arguments positionally. -/
def argN (as : List (List Nat)) (k : Nat) : List Nat := (as.getD k [])

/-- English message templates of `errorMessage["en"]` in `errors.go`,
with the `%s`/`%c` placeholders substituted from the stored arguments. -/
def errMsgEn (t : ErrType) (as : List (List Nat)) : List Nat :=
  match t with
  | .Internal => strB "internal error: " ++ argN as 0
  | .Encoding => strB "Rison must be a valid UTF-8 string"
  | .EmptyString => strB "empty string"
  | .UnmatchedPair => strB "unmatched \"" ++ argN as 0 ++ strB "\""
  | .MissingCharacter => strB "missing \"" ++ argN as 0 ++ strB "\""
  | .MissingCharacterAfterEscape => strB "missing character after \"!\""
  | .ExtraCharacter => strB "extra character \"" ++ argN as 0 ++ strB "\""
  | .ExtraCharacterAfterRison =>
      strB "extra character \"" ++ argN as 0 ++ strB "\" after valid Rison"
  | .InvalidLiteral => strB "invalid literal \"!" ++ argN as 0 ++ strB "\""
  | .InvalidCharacter => strB "invalid character \"" ++ argN as 0 ++ strB "\""
  | .InvalidTypeOfObjectKey => strB "object key must be a string"
  | .InvalidStringEscape => strB "invalid string escape \"!" ++ argN as 0 ++ strB "\""
  | .InvalidNumber => strB "invalid number \"" ++ argN as 0 ++ strB "\""
  | .InvalidLargeExp => strB "large case \"E\" for exponent cannot be used"

/-- The positional suffix computed by `ParseError.ErrorInLang` (`errors.go`)
for the `"en"` templates of `errPosDesc`: a five-byte context window on each
side of the position, clamped by `substrLimited`, then one of the five
templates depending on which windows are empty. -/
def errPosSuffixEn (src : List Nat) (pos : Int) : List Nat :=
  let n : Int := 5
  let ll := if 0 < pos - n then strB ".. " else []
  let l := substrLimitedB src (pos - n) n
  let c := substrLimitedB src pos 1
  let r := substrLimitedB src (pos + 1) n
  let rr := if pos + 1 + n < (src.length : Int) then strB " .." else []
  if l = [] then
    if r = [] then
      if c = [] then []
      else strB " (at the first character \"" ++ c ++ strB "\")"
    else
      strB " (at the first character \"" ++ c ++ strB "\" -> \"" ++ r ++ strB "\"" ++
        rr ++ strB ")"
  else if c = [] then
    strB " (at the end of string " ++ ll ++ strB "\"" ++ l ++ strB "\" -> EOS)"
  else if r = [] then
    strB " (at the last character " ++ ll ++ strB "\"" ++ l ++ strB "\" -> \"" ++ c ++
      strB "\")"
  else
    strB " (at [" ++ intDecB pos ++ strB "] near " ++ ll ++ strB "\"" ++ l ++
      strB "\" -> \"" ++ c ++ strB "\" -> \"" ++ r ++ strB "\"" ++ rr ++ strB ")"

/-- `ParseError.ErrorInLang("en")` (and hence `ParseError.Error`): the
kind-specific message followed by the positional suffix.  Every `ErrType`
has an entry in the English table, so the `Internal` fallback for an unknown
kind is unreachable in the model. -/
def renderErrEn (e : PErr) : List Nat :=
  errMsgEn e.typ e.args ++ errPosSuffixEn e.src e.pos

/-- Bounded byte-range test. -/
def inRange (lo hi b : Nat) : Bool := decide (lo ≤ b) && decide (b ≤ hi)

/-- UTF-8 continuation byte. -/
def isCont (b : Nat) : Bool := inRange 0x80 0xBF b

/-- Classification of a UTF-8 leading byte, per the Go standard library's
`utf8` tables: `none` for an impossible leader (stray continuation bytes,
overlong `C0`/`C1`, beyond `F4`), otherwise the number of continuation
bytes that must follow together with the admissible range of the first of
them (shortest-form and surrogate/maximum restrictions narrow it for
`E0`, `ED`, `F0` and `F4`); continuation bytes after the first are always
`80`–`BF`. -/
def utf8Need (b : Nat) : Option (Nat × Nat × Nat) :=
  if b ≤ 0x7F then some (0, 0, 0)
  else if b < 0xC2 then none
  else if b ≤ 0xDF then some (1, 0x80, 0xBF)
  else if b = 0xE0 then some (2, 0xA0, 0xBF)
  else if b = 0xED then some (2, 0x80, 0x9F)
  else if b ≤ 0xEF then some (2, 0x80, 0xBF)
  else if b = 0xF0 then some (3, 0x90, 0xBF)
  else if b ≤ 0xF3 then some (3, 0x80, 0xBF)
  else if b = 0xF4 then some (3, 0x80, 0x8F)
  else none

/-- Consume `k` continuation bytes, the first bounded by `lo`–`hi`, the
rest ordinary (`80`–`BF`); returns the remaining input. -/
def dropCont : Nat → Nat → Nat → List Nat → Option (List Nat)
| 0, _, _, t => some t
| _ + 1, _, _, [] => none
| k + 1, lo, hi, c :: t => if inRange lo hi c then dropCont k 0x80 0xBF t else none

/-- Fuelled UTF-8 validation loop; each step consumes at least the leading
byte, so `length + 1` fuel always suffices. -/
def utf8ValidF : Nat → List Nat → Bool
| 0, _ => false
| _ + 1, [] => true
| fuel + 1, b :: t =>
  match utf8Need b with
  | none => false
  | some (k, lo, hi) =>
    match dropCont k lo hi t with
    | none => false
    | some t2 => utf8ValidF fuel t2

/-- Model of `utf8.Valid` from the Go standard library: the byte string
decomposes into well-formed UTF-8 character encodings (shortest form, no
surrogates, at most U+10FFFF). -/
def utf8Valid (s : List Nat) : Bool := utf8ValidF (s.length + 1) s

/-- ASCII digit test. -/
def isDigitB (b : Nat) : Bool := inRange 0x30 0x39 b

/-- Split a byte string at the first non-digit. -/
def spanDigits : List Nat → List Nat × List Nat
| [] => ([], [])
| c :: rest =>
  if isDigitB c then
    let p := spanDigits rest
    (c :: p.1, p.2)
  else ([], c :: rest)

/-- Numeric value of a digit-byte string. -/
def digitsVal (l : List Nat) : Nat := l.foldl (fun a b => 10 * a + (b - 0x30)) 0

/-- A decimal value in normalized scientific form: `±d₁.d₂…dₖ × 10^e` with
digit values `d₁ ≠ 0`, `dₖ ≠ 0`; zero is represented by an empty digit list
(the sign is kept, as Go renders `-0`).  This is the value content of a
`float64` that travels through `encoding/json`: `json.Unmarshal` of a number
produces the `float64` nearest the decimal, and `json.Marshal` prints its
shortest decimal representation.  The model identifies the float with its
shortest decimal, which is exact whenever the digits are such a shortest
representation (in particular for every number the encoder itself emits). -/
structure GoDec where
  neg : Bool
  digits : List Nat
  e : Int
deriving DecidableEq, Repr

/-- Count leading zero digit values. -/
def countLeadZeros : List Nat → Nat
| [] => 0
| d :: r => if d = 0 then countLeadZeros r + 1 else 0

/-- Normalize parsed number parts into a `GoDec`.  The range guard models
`strconv.ParseFloat` returning `ErrRange` (which `encoding/json` turns into
an unmarshalling error) for decimals far outside `float64` range; no theorem
depends on the exact cutoff. -/
def goNumBuild (neg : Bool) (ip fp : List Nat) (expN : Int) : Option GoDec :=
  let ds := (ip ++ fp).map (fun b => b - 0x30)
  let lead := countLeadZeros ds
  let core0 := ds.drop lead
  let trail := countLeadZeros core0.reverse
  let core := core0.take (core0.length - trail)
  if core = [] then some ⟨neg, [], 0⟩
  else
    let e : Int := (core0.length : Int) - 1 + expN - (fp.length : Int)
    if 309 ≤ e ∨ e < -324 then none
    else some ⟨neg, core, e⟩

/-- Model of `encoding/json` number reading (`json.Unmarshal` into
`interface{}`): the JSON number grammar — optional `-`, an integer part
without redundant leading zero, an optional nonempty fraction, an optional
`e`/`E` exponent with optional sign — parsed into its decimal value.
Any other shape is an unmarshalling error (`none`). -/
def goNumParse (t : List Nat) : Option GoDec :=
  let sp : Bool × List Nat :=
    match t with
    | 0x2D :: r => (true, r)
    | _ => (false, t)
  match spanDigits sp.2 with
  | ([], _) => none
  | (ip, t2) =>
    if ip.length > 1 ∧ ip.headD 0 = 0x30 then none
    else
      let fr : Option (List Nat × List Nat) :=
        match t2 with
        | 0x2E :: r =>
          match spanDigits r with
          | ([], _) => none
          | (f, r2) => some (f, r2)
        | _ => some ([], t2)
      match fr with
      | none => none
      | some (fp, t3) =>
        match t3 with
        | [] => goNumBuild sp.1 ip fp 0
        | e :: r =>
          if e = 0x65 ∨ e = 0x45 then
            let er : Bool × List Nat :=
              match r with
              | 0x2B :: r1 => (false, r1)
              | 0x2D :: r1 => (true, r1)
              | _ => (false, r)
            match spanDigits er.2 with
            | ([], _) => none
            | (ed, r2) =>
              if r2 = [] then
                goNumBuild sp.1 ip fp
                  (if er.1 then -(digitsVal ed : Int) else (digitsVal ed : Int))
              else none
          else none

/-- Model of `encoding/json` number printing (`json.Marshal` of a
`float64`): Go prints the shortest digits in `%f` style when the normalized
exponent is in `[-6, 20]` and in `%e` style otherwise; `encoding/json`
additionally strips a leading zero from a two-digit negative exponent, so a
negative exponent is printed with its plain decimal digits. -/
def goNumRender (d : GoDec) : List Nat :=
  match d.digits with
  | [] => if d.neg then [0x2D, 0x30] else [0x30]
  | h :: tl =>
    let sign : List Nat := if d.neg then [0x2D] else []
    if 21 ≤ d.e ∨ d.e ≤ -7 then
      sign ++ [h + 0x30] ++ (if tl = [] then [] else 0x2E :: tl.map (· + 0x30)) ++
        [0x65] ++ (if d.e < 0 then [0x2D] else [0x2B]) ++ natDecB d.e.natAbs
    else if (d.digits.length : Int) - 1 ≤ d.e then
      sign ++ d.digits.map (· + 0x30) ++
        List.replicate (d.e - ((d.digits.length : Int) - 1)).toNat 0x30
    else if 0 ≤ d.e then
      sign ++ (d.digits.take (d.e.toNat + 1)).map (· + 0x30) ++ [0x2E] ++
        (d.digits.drop (d.e.toNat + 1)).map (· + 0x30)
    else
      sign ++ [0x30, 0x2E] ++ List.replicate (-d.e - 1).toNat 0x30 ++
        d.digits.map (· + 0x30)

/-- Reading a number text back and reprinting it (`json.Unmarshal` followed
by `json.Marshal`), as the decoder's `parseNumber` does. -/
def goNumReM (t : List Nat) : Option (List Nat) := (goNumParse t).map goNumRender

/-- A canonical Go number text: one that `encoding/json` reproduces
verbatim.  These are exactly the texts `json.Marshal` emits for `float64`
values. -/
def GoNumCanon (t : List Nat) : Prop := goNumReM t = some t

/-- Source `bytes.Replace(j, []byte{'+'}, []byte{}, -1)` in the encoder's
number case: drop every `+` byte. -/
def stripPlus (l : List Nat) : List Nat := l.filter (fun b => b ≠ 0x2B)

/-- The canonical JSON text the parser accumulates in `p.buffer`, modelled by
the JSON tree that text serializes: the parser only ever writes complete
canonical JSON fragments (`json.Marshal` outputs and matching punctuation),
so the buffer is in one-to-one correspondence with such a tree.  String
contents are stored unescaped (`json.Marshal` of a valid-UTF-8 Go string is
modelled as the identity on its content; the whole input is UTF-8-validated
up front). -/
inductive JsonV
| jnull
| jbool (b : Bool)
| jnum (t : List Nat)
| jstr (str : List Nat)
| jarr (xs : List JsonV)
| jobj (kvs : List (List Nat × JsonV))
deriving Repr

/-- Node types of `decoder.go` (`nodeType`); the `invalid` variant only
accompanies errors and is not needed. -/
inductive NodeType
| nullT
| boolT
| numT
| strT
| arrT
| objT
deriving DecidableEq, Repr

/-- Build a `ParseError` value. -/
def mkErr (t : ErrType) (as : List (List Nat)) (s : List Nat) (p : Int) : PErr :=
  ⟨t, as, s, p⟩

/-- Source `parser.next` with `SkipWhitespaces` false, which is how every
public entry point constructs the parser (`parser{Mode: m}`): return the
byte at the cursor and advance.  The whitespace-skipping variant is dead
code for the public API and is not modelled. -/
def nextc (s : List Nat) (i : Nat) : Option (Nat × Nat) :=
  match s[i]? with
  | none => none
  | some c => some (c, i + 1)

/-- The identifier-run loop of `parser.parseID`: collect bytes until one in
`notIDChar` or end of input.  The fuel (first `Nat`) is a modelling artifact
bounding the loop; `s.length + 1` always suffices since the cursor advances
each step. -/
def idRunF (s : List Nat) : Nat → Nat → List Nat × Nat
| 0, i => ([], i)
| fuel + 1, i =>
  match s[i]? with
  | none => ([], i)
  | some c =>
    if notIDChar.contains c then ([], i)
    else
      let p := idRunF s fuel (i + 1)
      (c :: p.1, p.2)

/-- The identifier-run loop at its call sites. -/
def idRun (s : List Nat) (i : Nat) : List Nat × Nat := idRunF s (s.length + 1) i

/-- Source `parser.parseID`: `none` when the byte at the cursor is missing or
in `notIDStart`, otherwise the collected identifier and the new cursor.
(`json.Marshal` of the identifier cannot fail, so the error branch of the Go
code is unreachable.) -/
def parseID (s : List Nat) (i : Nat) : Option (List Nat × Nat) :=
  match s[i]? with
  | none => none
  | some c =>
    if notIDStart.contains c then none
    else
      let p := idRun s (i + 1)
      some (c :: p.1, p.2)

/-- Source `parser.parseQuotedString`, entered just past the opening quote.
The content is accumulated byte-by-byte (the Go code copies pending spans
before each escape and at the close, which concatenates to the same bytes).
Modelled from the spec: reaching end-of-input immediately after the escape
character `!` reports `MissingCharacterAfterEscape` (the snapshot decoder
predates the typed-error revision that adds this bounds check). -/
def parseQStrF (s : List Nat) : Nat → Nat → Except PErr (List Nat × Nat)
| 0, i => .error (mkErr .Internal [strB "fuel"] s i)
| fuel + 1, i =>
  match s[i]? with
  | none => .error (mkErr .UnmatchedPair [[0x27]] s i)
  | some c =>
    if c = 0x27 then .ok ([], i + 1)
    else if c = 0x21 then
      match s[i + 1]? with
      | none => .error (mkErr .MissingCharacterAfterEscape [] s (i + 1))
      | some c2 =>
        if c2 = 0x21 ∨ c2 = 0x27 then
          match parseQStrF s fuel (i + 2) with
          | .ok p => .ok (c2 :: p.1, p.2)
          | .error e => .error e
        else .error (mkErr .InvalidStringEscape [[c2]] s (i + 2))
    else
      match parseQStrF s fuel (i + 1) with
      | .ok p => .ok (c :: p.1, p.2)
      | .error e => .error e

/-- The quoted-string scanner at its call sites: the cursor advances every
step, so `s.length + 1` fuel never runs out. -/
def parseQStr (s : List Nat) (i : Nat) : Except PErr (List Nat × Nat) :=
  parseQStrF s (s.length + 1) i

/-- Outcome of scanning a quoted-string body, phrased over the input suffix:
either the unescaped content together with the number of bytes consumed
(through the closing quote), or the three failure shapes the specification
names — no closing quote before end of input, a bad character after the
escape `!`, or end of input immediately after `!`.  The count always points
where the scan stopped. -/
inductive QSOut
| okQ (content : List Nat) (used : Nat)
| unmatchedQ (used : Nat)
| badEscQ (c : Nat) (used : Nat)
| eosEscQ (used : Nat)
deriving DecidableEq, Repr

/-- Specification-side quoted-string scanner: `!!` yields `!`, `!'` yields
`'`, any other escaped byte is a bad escape, a bare `'` closes, end of
input is unmatched, and end of input directly after `!` is the
escape-at-end failure. -/
def qsScan : List Nat → QSOut
| [] => .unmatchedQ 0
| c :: rest =>
  if c = 0x27 then .okQ [] 1
  else if c = 0x21 then
    match rest with
    | [] => .eosEscQ 1
    | c2 :: rest2 =>
      if c2 = 0x21 ∨ c2 = 0x27 then
        match qsScan rest2 with
        | .okQ cs u => .okQ (c2 :: cs) (u + 2)
        | .unmatchedQ u => .unmatchedQ (u + 2)
        | .badEscQ b u => .badEscQ b (u + 2)
        | .eosEscQ u => .eosEscQ (u + 2)
      else .badEscQ c2 2
  else
    match qsScan rest with
    | .okQ cs u => .okQ (c :: cs) (u + 1)
    | .unmatchedQ u => .unmatchedQ (u + 1)
    | .badEscQ b u => .badEscQ b (u + 1)
    | .eosEscQ u => .eosEscQ (u + 1)

/-- Interpretation of a `qsScan` outcome as the parser's result at absolute
position `i`, with the error kinds and positions the decoder reports. -/
def qsOutcome (s : List Nat) (i : Nat) (o : QSOut) : Except PErr (List Nat × Nat) :=
  match o with
  | .okQ cs u => .ok (cs, i + u)
  | .unmatchedQ u => .error (mkErr .UnmatchedPair [[0x27]] s (i + u))
  | .badEscQ b u => .error (mkErr .InvalidStringEscape [[b]] s (i + u))
  | .eosEscQ u => .error (mkErr .MissingCharacterAfterEscape [] s (i + u))

/-- States of the number lexer (`parseNumberState`); the `end` state is the
loop exit. -/
inductive NumState
| intS
| fracS
| expS
deriving DecidableEq, Repr

/-- The scanning loop of `parser.parseNumber`: digits continue, a permitted
sign is consumed once, `.` moves int to frac, `e` moves int or frac to exp
re-permitting `-`, anything else (or end of input) stops; returns the final
cursor (the Go loop overshoots by one and decrements after). -/
def lexNumF (s : List Nat) : Nat → NumState → List Nat → Nat → Nat
| 0, _, _, i => i
| fuel + 1, st, signs, i =>
  match s[i]? with
  | none => i
  | some c =>
    if isDigitB c then lexNumF s fuel st signs (i + 1)
    else if signs.contains c then lexNumF s fuel st [] (i + 1)
    else
      match st with
      | .intS =>
        if c = 0x2E then lexNumF s fuel .fracS signs (i + 1)
        else if c = 0x65 then lexNumF s fuel .expS [0x2D] (i + 1)
        else i
      | .fracS =>
        if c = 0x65 then lexNumF s fuel .expS [0x2D] (i + 1)
        else i
      | .expS => i

/-- The number lexer at its call site: the cursor advances every step, so
`s.length + 1` fuel never runs out. -/
def lexNum (s : List Nat) (st : NumState) (signs : List Nat) (i : Nat) : Nat :=
  lexNumF s (s.length + 1) st signs i

/-- Source `parser.parseNumber`, entered just past the first byte of the
number: lex the token, reject a bare `-`, then take the token through
`json.Unmarshal` and `json.Marshal` (`goNumParse`/`goNumRender`), writing
the reprinted canonical number.  A token rejected by the JSON number
grammar is an `InvalidNumber` error carrying the token text. -/
def parseNum (s : List Nat) (i : Nat) : Except PErr (JsonV × Nat) :=
  let start := i - 1
  let j := lexNum s .intS [0x2D] i
  let t := (s.drop start).take (j - start)
  if t = [0x2D] then .error (mkErr .InvalidNumber [t] s j)
  else
    match goNumParse t with
    | none => .error (mkErr .InvalidNumber [t] s j)
    | some d => .ok (.jnum (goNumRender d), j)

/-- Content of a string node (the object-key extraction after the
`nodeType_string` check; a string-typed result is always a `jstr`). -/
def jstrContent : JsonV → List Nat
| .jstr s => s
| _ => []

/-- The four recursion entry points of the decoder: `readValue`, the body
of `parseSpecial` (after the `!`), and the element/member loops of
`parseArray` and `parseObject`.  Packing them into one tag type lets the
whole recursive parser be a single function, structurally recursive on its
fuel. -/
inductive PCall
| rv (i : Nat)
| sp (i : Nat)
| arrLoop (notFirst : Bool) (acc : List JsonV) (i : Nat)
| objLoop (notFirst : Bool) (acc : List (List Nat × JsonV)) (i : Nat)

/-- Cursor position of a parser call (used only by the fuel-exhaustion
artifact). -/
def PCall.idx : PCall → Nat
| .rv i => i
| .sp i => i
| .arrLoop _ _ i => i
| .objLoop _ _ i => i

/-- The recursive core of the decoder (`parser.readValue`,
`parser.parseSpecial`, `parser.parseArray`, `parser.parseObject` of
`decoder.go`), one step per constructor of `PCall`.  The `fuel` argument is
a modelling artifact bounding the recursion depth (the Go recursion
terminates because the cursor strictly advances); every theorem supplies
sufficient fuel and the fuel-exhaustion branch is unreachable there.  Error
kinds are the `errtype` constants declared in the repository (`Modelled
from the spec:` the snapshot decoder spells them as message strings).  In
detail:

* `.rv i` — `readValue`: dispatch on the next byte: `!` special forms, `(`
  objects, `'` quoted strings, `-`/digit numbers, otherwise a bare
  identifier; a byte that starts nothing is `InvalidCharacter`, end of
  input is `EmptyString`.
* `.sp i` — `parseSpecial` past the `!`: `t`/`f`/`n` literals, `(` starts
  an array, any other byte is `InvalidLiteral`; running out of input after
  `!` is `MissingCharacterAfterEscape` (Modelled from the spec).
* `.arrLoop` — `parseArray`: `)` closes, members after the first require a
  separating `,` (`MissingCharacter`), a leading `,` is `ExtraCharacter`,
  end of input is an unmatched `!(`.
* `.objLoop` — `parseObject`: like the array loop with a string-typed key
  (`InvalidTypeOfObjectKey` otherwise), a `:` (`MissingCharacter`), and a
  value per member.  Key and value sub-errors propagate unchanged (the
  spec, sec. 9, records the historical wrapping of sub-errors as an open
  question; rendering ignores the child either way). -/
def parseRec (s : List Nat) : Nat → PCall → Except PErr (NodeType × JsonV × Nat)
| 0, c => .error (mkErr .Internal [strB "fuel"] s c.idx)
| fuel + 1, .rv i =>
  match nextc s i with
  | none => .error (mkErr .EmptyString [] s i)
  | some (c, i1) =>
    if c = 0x21 then parseRec s fuel (.sp i1)
    else if c = 0x28 then parseRec s fuel (.objLoop false [] i1)
    else if c = 0x27 then
      match parseQStr s i1 with
      | .ok p => .ok (.strT, .jstr p.1, p.2)
      | .error e => .error e
    else if c = 0x2D ∨ isDigitB c then
      match parseNum s i1 with
      | .ok p => .ok (.numT, p.1, p.2)
      | .error e => .error e
    else
      match parseID s i with
      | some p => .ok (.strT, .jstr p.1, p.2)
      | none => .error (mkErr .InvalidCharacter [[c]] s i)
| fuel + 1, .sp i =>
  match s[i]? with
  | none => .error (mkErr .MissingCharacterAfterEscape [] s i)
  | some c =>
    if c = 0x74 then .ok (.boolT, .jbool true, i + 1)
    else if c = 0x66 then .ok (.boolT, .jbool false, i + 1)
    else if c = 0x6E then .ok (.nullT, .jnull, i + 1)
    else if c = 0x28 then parseRec s fuel (.arrLoop false [] (i + 1))
    else .error (mkErr .InvalidLiteral [[c]] s i)
| fuel + 1, .arrLoop notFirst acc i =>
  match nextc s i with
  | none => .error (mkErr .UnmatchedPair [[0x21, 0x28]] s i)
  | some (c, i1) =>
    if c = 0x29 then .ok (.arrT, .jarr acc, i1)
    else
      match (if notFirst then
               (if c = 0x2C then Except.ok i1
                else .error (mkErr .MissingCharacter [[0x2C]] s ((i1 : Int) - 1)))
             else
               (if c = 0x2C then .error (mkErr .ExtraCharacter [[0x2C]] s ((i1 : Int) - 1))
                else Except.ok i) : Except PErr Nat) with
      | .error e => .error e
      | .ok i2 =>
        match parseRec s fuel (.rv i2) with
        | .error e => .error e
        | .ok t => parseRec s fuel (.arrLoop true (acc ++ [t.2.1]) t.2.2)
| fuel + 1, .objLoop notFirst acc i =>
  match nextc s i with
  | none => .error (mkErr .UnmatchedPair [[0x28]] s i)
  | some (c, i1) =>
    if c = 0x29 then .ok (.objT, .jobj acc, i1)
    else
      match (if notFirst then
               (if c = 0x2C then Except.ok i1
                else .error (mkErr .MissingCharacter [[0x2C]] s ((i1 : Int) - 1)))
             else
               (if c = 0x2C then .error (mkErr .ExtraCharacter [[0x2C]] s ((i1 : Int) - 1))
                else Except.ok i) : Except PErr Nat) with
      | .error e => .error e
      | .ok i2 =>
        match parseRec s fuel (.rv i2) with
        | .error e => .error e
        | .ok kt =>
          if kt.1 ≠ NodeType.strT then
            .error (mkErr .InvalidTypeOfObjectKey [] s ((kt.2.2 : Int) - 1))
          else
            match nextc s kt.2.2 with
            | none => .error (mkErr .MissingCharacter [[0x3A]] s kt.2.2)
            | some cj =>
              if cj.1 ≠ 0x3A then
                .error (mkErr .MissingCharacter [[0x3A]] s ((cj.2 : Int) - 1))
              else
                match parseRec s fuel (.rv cj.2) with
                | .error e => .error e
                | .ok vt =>
                  parseRec s fuel (.objLoop true (acc ++ [(jstrContent kt.2.1, vt.2.1)]) vt.2.2)

/-- Source `parser.readValue` (see `parseRec`). -/
def readValue (s : List Nat) (fuel i : Nat) : Except PErr (NodeType × JsonV × Nat) :=
  parseRec s fuel (.rv i)

/-- Length of the implicit prefix a mode prepends. -/
def modeShift : Mode → Nat
| .Rison => 0
| .ORison => 1
| .ARison => 2

/-- The mode wrapping of `parser.parse`: O-Rison is surrounded by `(` `)`,
A-Rison by `!(` `)`. -/
def wrapMode (m : Mode) (r : List Nat) : List Nat :=
  match m with
  | .Rison => r
  | .ORison => 0x28 :: r ++ [0x29]
  | .ARison => 0x21 :: 0x28 :: r ++ [0x29]

/-- The mode adjustment `parser.errorf` applies when it creates an error:
the reported source strips the implicit wrapper (`substr(src, 1, -1)` or
`substr(src, 2, -1)`) and the position is shifted back by the prefix
length.  The Go code performs this at each error-creation site; since the
parser's source string and mode are fixed for the whole run, applying it
once to the raw (wrapped-text) error is the same function. -/
def adjustErr (m : Mode) (e : PErr) : PErr :=
  { typ := e.typ
    args := e.args
    src :=
      match m with
      | .Rison => e.src
      | .ORison => substrB e.src 1 (-1)
      | .ARison => substrB e.src 2 (-1)
    pos := e.pos - (modeShift m : Int) }

/-- Fuel supplied to the recursive parser; any bound at least the recursion
depth works, and the depth is below four times the input length. -/
def topFuel (n : Nat) : Nat := 4 * n + 4

/-- Source `parser.parse`: validate UTF-8 (an `Encoding` error is created
before the source field is assigned, hence with empty source), wrap per
mode, read one value, then require the cursor at end of input.  Modelled
from the spec: when the top-level value was numeric and the next byte is
`E`, the dedicated `InvalidLargeExp` is reported instead of
`ExtraCharacterAfterRison` (the snapshot decoder carries a TODO comment at
exactly this branch; `errtype` and `errors.go` declare the kind and its
message). -/
def parseTop (m : Mode) (r : List Nat) : Except PErr JsonV :=
  if utf8Valid r then
    let s := wrapMode m r
    match readValue s (topFuel s.length) 0 with
    | .error e => .error (adjustErr m e)
    | .ok t =>
      if t.2.2 < s.length then
        let c := s.getD t.2.2 0
        if t.1 = NodeType.numT ∧ c = 0x45 then
          .error (adjustErr m (mkErr .InvalidLargeExp [] s t.2.2))
        else .error (adjustErr m (mkErr .ExtraCharacterAfterRison [[c]] s t.2.2))
      else .ok t.2.1
  else .error (adjustErr m (mkErr .Encoding [] [] 0))

/-- The value model: the JSON data model shared by decode output and encode
input (`map[string]interface{}` trees in Go).  Numbers carry the canonical
text of the underlying `float64` (see `GoDec`); object member lists are a
representation of an unordered Go map, so values are compared through
`canonV` below. -/
inductive JValue
| null
| bool (b : Bool)
| num (t : List Nat)
| str (str : List Nat)
| arr (xs : List JValue)
| obj (kvs : List (List Nat × JValue))
deriving Repr

/-- Map-entry assignment `m[k] = v`: replace the existing entry or append. -/
def upsert : List (List Nat × JValue) → List Nat → JValue → List (List Nat × JValue)
| [], k, v => [(k, v)]
| p :: rest, k, v => if p.1 = k then (p.1, v) :: rest else p :: upsert rest k v

/-- Building a Go map from the members in source order, later entries
overwriting earlier ones — the behaviour of `json.Unmarshal` into
`map[string]interface{}` when the JSON text repeats a key. -/
def dedupPairs (l : List (List Nat × JValue)) : List (List Nat × JValue) :=
  l.foldl (fun acc p => upsert acc p.1 p.2) []

mutual

/-- Model of `json.Unmarshal` of the parser's buffer into `interface{}`
(the second half of `Decode`): structure is preserved, numbers keep their
canonical text, objects become maps with last-occurrence-wins keys. -/
def jsonToVal : JsonV → JValue
| .jnull => .null
| .jbool b => .bool b
| .jnum t => .num t
| .jstr s => .str s
| .jarr xs => .arr (jsonToValL xs)
| .jobj kvs => .obj (dedupPairs (jsonToValP kvs))

/-- Elementwise `jsonToVal` on array members. -/
def jsonToValL : List JsonV → List JValue
| [] => []
| x :: xs => jsonToVal x :: jsonToValL xs

/-- Elementwise `jsonToVal` on object members. -/
def jsonToValP : List (List Nat × JsonV) → List (List Nat × JValue)
| [] => []
| (k, v) :: rest => (k, jsonToVal v) :: jsonToValP rest

end

/-- Source `Decode`: parse to the canonical JSON form, then unmarshal into
the generic value tree. -/
def risonDecode (m : Mode) (r : List Nat) : Except PErr JValue :=
  match parseTop m r with
  | .ok j => .ok (jsonToVal j)
  | .error e => .error e

/-- Source `idOk` (encoder.go): non-empty, first byte not in `notIDStart`,
every later byte not in `notIDChar` (the Go loop runs over indices `1..n-1`). -/
def idOk (s : List Nat) : Bool :=
  match s with
  | [] => false
  | c :: rest => !(notIDStart.contains c) && rest.all (fun b => !(notIDChar.contains b))

/-- One byte of the quoted-string loop in `encoder.writeString`: a literal
`'` or `!` gets an `!` written before it, every other byte is written as
is. -/
def escByte (c : Nat) : List Nat := if c = 0x27 ∨ c = 0x21 then [0x21, c] else [c]

/-- Source `encoder.writeString` on a string value: emit it bare when
`idOk`, otherwise wrap in single quotes escaping with `escByte` (the byte
loop concatenates to `flatMap escByte`). -/
def writeStringB (s : List Nat) : List Nat :=
  if idOk s then s else 0x27 :: s.flatMap escByte ++ [0x27]

/-- Go string comparison `ki < kj`: strict bytewise lexicographic order,
the comparator `sort.Slice` receives in `encoder.encodeMap` (the
`CanInterface`/type-assertion fallbacks never fire: map keys decoded from
JSON are always strings). -/
def lexLt : List Nat → List Nat → Bool
| [], [] => false
| [], _ :: _ => true
| _ :: _, [] => false
| a :: as, b :: bs => if a < b then true else if b < a then false else lexLt as bs

/-- Insert a keyed entry into a list sorted ascending by `lexLt` on keys. -/
def insertPair {α : Type} (p : List Nat × α) : List (List Nat × α) → List (List Nat × α)
| [] => [p]
| q :: rest => if lexLt q.1 p.1 then q :: insertPair p rest else p :: q :: rest

/-- Model of `sort.Slice(keys, less)` in `encoder.encodeMap`: insertion sort
by `lexLt` on the key.  On the decoded-JSON maps the encoder walks, keys are
pairwise distinct, so the ascending order is unique and any correct sort —
the Go standard sort included — produces this list. -/
def sortPairsB {α : Type} : List (List Nat × α) → List (List Nat × α)
| [] => []
| p :: rest => insertPair p (sortPairsB rest)

/-- Comma-join the encoded members, as the encoder's `0 < i` comma writes
produce. -/
def joinComma : List (List Nat) → List Nat
| [] => []
| [x] => x
| x :: xs => x ++ 0x2C :: joinComma xs

/-- Render sorted object members: encoded key (via `writeString`), `:`,
encoded value. -/
def renderPairs (l : List (List Nat × List Nat)) : List (List Nat) :=
  l.map (fun p => writeStringB p.1 ++ 0x3A :: p.2)

mutual

/-- Source `encoder.encodeValue` under `Rison` (full) mode: `!n`, `!t`/`!f`,
number text with `+` stripped, strings via `writeString`, `!(…)` arrays and
`(…)` objects with keys sorted.  The Go code sorts the keys and then encodes
each member in order; here each member is encoded and the members then
sorted by key — each member's bytes depend only on its own pair, so the
emitted bytes are identical. -/
def encodeValue : JValue → List Nat
| .null => [0x21, 0x6E]
| .bool b => if b then [0x21, 0x74] else [0x21, 0x66]
| .num t => stripPlus t
| .str s => writeStringB s
| .arr xs => 0x21 :: 0x28 :: joinComma (encList xs) ++ [0x29]
| .obj kvs => 0x28 :: joinComma (renderPairs (sortPairsB (encPairs kvs))) ++ [0x29]

/-- Encoded array members in order. -/
def encList : List JValue → List (List Nat)
| [] => []
| x :: xs => encodeValue x :: encList xs

/-- Object members with values encoded, keys kept. -/
def encPairs : List (List Nat × JValue) → List (List Nat × List Nat)
| [] => []
| (k, v) :: rest => (k, encodeValue v) :: encPairs rest

end

/-- Source `Marshal`/`encoder.encode` in full-Rison mode: the `null`
document is special-cased to `!n` before the tree walk; otherwise the value
is encoded by `encodeValue` (full mode performs no wrapper stripping and no
kind check). -/
def risonEncodeFull (v : JValue) : List Nat :=
  match v with
  | .null => [0x21, 0x6E]
  | _ => encodeValue v

mutual

/-- Canonical form of a value: object member lists sorted by key at every
level.  Two `JValue`s represent the same Go value (the same
`map[string]interface{}` tree, whose maps are unordered) exactly when their
canonical forms are equal. -/
def canonV : JValue → JValue
| .null => .null
| .bool b => .bool b
| .num t => .num t
| .str s => .str s
| .arr xs => .arr (canonL xs)
| .obj kvs => .obj (sortPairsB (canonP kvs))

/-- Elementwise canonical form of array members. -/
def canonL : List JValue → List JValue
| [] => []
| x :: xs => canonV x :: canonL xs

/-- Canonical form of object members (values canonicalized, keys kept). -/
def canonP : List (List Nat × JValue) → List (List Nat × JValue)
| [] => []
| (k, v) :: rest => (k, canonV v) :: canonP rest

end

/-- Well-formed values: exactly those that arise as decoded generic JSON in
Go — number texts are canonical `float64` prints, strings (keys included)
are valid UTF-8, and each object's keys are distinct (Go map keys are). -/
inductive WFV : JValue → Prop
| null : WFV .null
| bool (b : Bool) : WFV (.bool b)
| num (t : List Nat) : GoNumCanon t → WFV (.num t)
| str (s : List Nat) : utf8Valid s = true → WFV (.str s)
| arr (xs : List JValue) : (∀ x ∈ xs, WFV x) → WFV (.arr xs)
| obj (kvs : List (List Nat × JValue)) :
    (∀ p ∈ kvs, utf8Valid p.1 = true) → (∀ p ∈ kvs, WFV p.2) →
    (kvs.map Prod.fst).Nodup → WFV (.obj kvs)

/-- ASCII letter or digit. -/
def isAlphaNum (b : Nat) : Bool :=
  inRange 0x30 0x39 b || inRange 0x41 0x5A b || inRange 0x61 0x7A b

/-- The bytes `net/url.QueryEscape` leaves unescaped: alphanumerics and
`-`, `_`, `.`, `~`. -/
def urlUnreserved (b : Nat) : Bool :=
  isAlphaNum b || b == 0x2D || b == 0x5F || b == 0x2E || b == 0x7E

/-- Uppercase hexadecimal digit for a value below 16. -/
def hexUpper (n : Nat) : Nat := if n < 10 then 0x30 + n else 0x37 + n

/-- Model of `net/url.QueryEscape` on one byte: unreserved bytes pass,
space becomes `+`, everything else becomes `%` and two uppercase hex
digits. -/
def queryEscapeByte (b : Nat) : List Nat :=
  if urlUnreserved b then [b]
  else if b = 0x20 then [0x2B]
  else [0x25, hexUpper (b / 16), hexUpper (b % 16)]

/-- The `escapeTable` of the quoting helper, keyed by the two hex digits of
a `%XX` escape: `%7E %21 %2A %28 %29 %2D %5F %2E %2C %3A %40 %24 %27 %2F`
map to their literal characters and `%20` maps to `+`. -/
def risonEscTable (h1 h2 : Nat) : Option Nat :=
  if h1 = 0x37 ∧ h2 = 0x45 then some 0x7E
  else if h1 = 0x32 ∧ h2 = 0x31 then some 0x21
  else if h1 = 0x32 ∧ h2 = 0x41 then some 0x2A
  else if h1 = 0x32 ∧ h2 = 0x38 then some 0x28
  else if h1 = 0x32 ∧ h2 = 0x39 then some 0x29
  else if h1 = 0x32 ∧ h2 = 0x44 then some 0x2D
  else if h1 = 0x35 ∧ h2 = 0x46 then some 0x5F
  else if h1 = 0x32 ∧ h2 = 0x45 then some 0x2E
  else if h1 = 0x32 ∧ h2 = 0x43 then some 0x2C
  else if h1 = 0x33 ∧ h2 = 0x41 then some 0x3A
  else if h1 = 0x34 ∧ h2 = 0x30 then some 0x40
  else if h1 = 0x32 ∧ h2 = 0x34 then some 0x24
  else if h1 = 0x32 ∧ h2 = 0x37 then some 0x27
  else if h1 = 0x32 ∧ h2 = 0x46 then some 0x2F
  else if h1 = 0x32 ∧ h2 = 0x30 then some 0x2B
  else none

/-- Source `QuoteString`, per input byte: `url.QueryEscape` the byte
(unreserved bytes pass, space becomes `+`, the rest becomes a `%XX`
escape, see `queryEscapeByte`), then replace a produced `%XX` escape by
its `escapeTable` entry when one exists.  The Go code performs the
replacement as one regex pass over the whole escaped string; since every
`%` in `QueryEscape` output begins a three-byte `%XX` escape with
uppercase hex digits, the non-overlapping regex matches are exactly those
escapes and the pass equals this per-byte composition. -/
def quoteByte (b : Nat) : List Nat :=
  if urlUnreserved b then [b]
  else if b = 0x20 then [0x2B]
  else
    match risonEscTable (hexUpper (b / 16)) (hexUpper (b % 16)) with
    | some r => [r]
    | none => [0x25, hexUpper (b / 16), hexUpper (b % 16)]

/-- Source `QuoteString` over the whole string. -/
def quoteStringB (s : List Nat) : List Nat := s.flatMap quoteByte

/-- Hexadecimal digit value, upper or lower case. -/
def hexVal (b : Nat) : Option Nat :=
  if isDigitB b then some (b - 0x30)
  else if inRange 0x41 0x46 b then some (b - 0x37)
  else if inRange 0x61 0x66 b then some (b - 0x57)
  else none

/-- Model of `net/url.QueryUnescape`: `%` followed by two hex digits
decodes the byte, `+` decodes the space, any other byte passes through, and
a malformed `%` escape is an error. -/
def queryUnescape : List Nat → Option (List Nat)
| [] => some []
| b :: rest =>
  if b = 0x25 then
    match rest with
    | h1 :: h2 :: rest2 =>
      match hexVal h1, hexVal h2 with
      | some a, some v =>
        match queryUnescape rest2 with
        | some r => some ((16 * a + v) :: r)
        | none => none
      | _, _ => none
    | _ => none
  else if b = 0x2B then
    match queryUnescape rest with
    | some r => some (0x20 :: r)
    | none => none
  else
    match queryUnescape rest with
    | some r => some (b :: r)
    | none => none

/-- The reserved byte set of the spec's identifier grammar:
space, `'`, `!`, `:`, `(`, `)`, `,`, `*`, `@`, `$`. -/
def specReserved : List Nat := [0x20, 0x27, 0x21, 0x3A, 0x28, 0x29, 0x2C, 0x2A, 0x40, 0x24]

/-- The spec's identifier grammar, written from its words: non-empty, the
first character not reserved, not a digit and not `-`, and the remaining
characters not reserved. -/
def specIsIdB (s : List Nat) : Bool :=
  match s with
  | [] => false
  | c :: rest =>
    !(specReserved.contains c || isDigitB c || c == 0x2D) &&
      rest.all (fun b => !(specReserved.contains b))

/-- Error test on a parse result. -/
def isErr {α : Type} : Except PErr α → Bool
| .error _ => true
| .ok _ => false

/-- The bytes `e` occur in `s` starting at position `i`. -/
def sliceAt (s : List Nat) (i : Nat) (e : List Nat) : Prop :=
  ∃ pre post, s = pre ++ e ++ post ∧ pre.length = i

/-- Position `j` is the end of input or carries one of the separator bytes
`,` `)` `:` — the only bytes that can directly follow a complete encoded
value inside encoder output. -/
def sepAt (s : List Nat) (j : Nat) : Prop :=
  j = s.length ∨ s[j]? = some 0x2C ∨ s[j]? = some 0x29 ∨ s[j]? = some 0x3A

/-- Node type the parser reports for each value shape. -/
def ntypeOf : JValue → NodeType
| .null => .nullT
| .bool _ => .boolT
| .num _ => .numT
| .str _ => .strT
| .arr _ => .arrT
| .obj _ => .objT

mutual

/-- The JSON tree the parser's buffer holds after reading the encoding of a
well-formed value: numbers keep their canonical text, object members appear
in the encoder's sorted order. -/
def jsonOfC : JValue → JsonV
| .null => .jnull
| .bool b => .jbool b
| .num t => .jnum t
| .str s => .jstr s
| .arr xs => .jarr (jsonOfCL xs)
| .obj kvs => .jobj (sortPairsB (jsonOfCP kvs))

/-- Elementwise `jsonOfC` on array members. -/
def jsonOfCL : List JValue → List JsonV
| [] => []
| x :: xs => jsonOfC x :: jsonOfCL xs

/-- Object members with values through `jsonOfC`, keys kept. -/
def jsonOfCP : List (List Nat × JValue) → List (List Nat × JsonV)
| [] => []
| (k, v) :: rest => (k, jsonOfC v) :: jsonOfCP rest

end

mutual

/-- A fuel budget sufficient for `readValue` to parse the encoding of a
value (any larger budget also works; `topFuel` dominates it). -/
def needFuel : JValue → Nat
| .null => 3
| .bool _ => 3
| .num _ => 2
| .str _ => 2
| .arr xs => 4 + needFuelL xs
| .obj kvs => 4 + needFuelP kvs

/-- Fuel for the array-element loop. -/
def needFuelL : List JValue → Nat
| [] => 0
| x :: xs => needFuel x + 2 + needFuelL xs

/-- Fuel for the object-member loop. -/
def needFuelP : List (List Nat × JValue) → Nat
| [] => 0
| (_, v) :: rest => needFuel v + 5 + needFuelP rest

end


/-- Association lookup by key (first match). -/
def lookupA (k : List Nat) : List (List Nat × JValue) → Option JValue
| [] => none
| p :: rest => if p.1 = k then some p.2 else lookupA k rest

/-- The text the array-member loop still has to consume after the first
member: each later member prefixed by its separating comma, then the closing
parenthesis. -/
def encTail : List JValue → List Nat
| [] => [0x29]
| x :: xs => 0x2C :: encodeValue x ++ encTail xs

/-- The text the object-member loop still has to consume after the first
member: comma, encoded key, colon, encoded value for each later member, then
the closing parenthesis. -/
def objTail : List (List Nat × JValue) → List Nat
| [] => [0x29]
| (k, v) :: rest => 0x2C :: writeStringB k ++ 0x3A :: encodeValue v ++ objTail rest


/-- The identifier run as a function of the remaining input: take bytes
until one in `notIDChar`. -/
def idTake : List Nat → List Nat
| [] => []
| c :: r => if notIDChar.contains c then [] else c :: idTake r


/-- Value of a least-significant-first digit list. -/
def lsbVal : List Nat → Nat
| [] => 0
| d :: r => d + 10 * lsbVal r

/-- The number lexer as a function of the remaining input (see `lexNumF`):
how many bytes the scanning loop of `parseNumber` consumes from a given
state. -/
def lexConsume : NumState → List Nat → List Nat → Nat
| _, _, [] => 0
| st, signs, c :: r =>
  if isDigitB c then lexConsume st signs r + 1
  else if signs.contains c then lexConsume st [] r + 1
  else
    match st with
    | .intS =>
      if c = 0x2E then lexConsume .fracS signs r + 1
      else if c = 0x65 then lexConsume .expS [0x2D] r + 1
      else 0
    | .fracS =>
      if c = 0x65 then lexConsume .expS [0x2D] r + 1
      else 0
    | .expS => 0


/-- Normalized decimal: the invariant every `GoDec` produced by
`goNumParse` satisfies — digit values below ten, no leading or trailing
zero digit, exponent zero for the zero value, exponent within `float64`
print range. -/
def normDec (d : GoDec) : Prop :=
  (∀ x ∈ d.digits, x < 10) ∧ d.digits.head? ≠ some 0 ∧ d.digits.getLast? ≠ some 0 ∧
    (d.digits = [] → d.e = 0) ∧ -324 ≤ d.e ∧ d.e < 309


/-- The sign step of `goNumParse`, written with `if` on the head byte
(provably equal to the source's `match`, see `goNumParse_eq`). -/
def pnSign (t : List Nat) : Bool × List Nat :=
  if t.head? = some 0x2D then (true, t.tail) else (false, t)

/-- The exponent-sign step of `goNumParse`, `if`-form. -/
def pnExpSign (r : List Nat) : Bool × List Nat :=
  if r.head? = some 0x2B then (false, r.tail)
  else if r.head? = some 0x2D then (true, r.tail)
  else (false, r)

/-- The exponent tail of `goNumParse` past the fraction, `if`-form. -/
def pnFinish (neg : Bool) (ip fp t3 : List Nat) : Option GoDec :=
  if t3 = [] then goNumBuild neg ip fp 0
  else if t3.head? = some 0x65 ∨ t3.head? = some 0x45 then
    let er := pnExpSign t3.tail
    let p3 := spanDigits er.2
    if p3.1 = [] then none
    else if p3.2 = [] then
      goNumBuild neg ip fp (if er.1 then -(digitsVal p3.1 : Int) else (digitsVal p3.1 : Int))
    else none
  else none

/-- `goNumParse` rewritten stage by stage with `if` in place of `match`;
`goNumParse_eq` proves it equal to the source function. -/
def pnStages (t : List Nat) : Option GoDec :=
  let sp := pnSign t
  let p1 := spanDigits sp.2
  if p1.1 = [] then none
  else if p1.1.length > 1 ∧ p1.1.headD 0 = 0x30 then none
  else if p1.2.head? = some 0x2E then
    let p2 := spanDigits p1.2.tail
    if p2.1 = [] then none
    else pnFinish sp.1 p1.1 p2.1 p2.2
  else pnFinish sp.1 p1.1 [] p1.2


/-- Exponent-part text of a rendered number: nothing, or `e` followed by an
optional minus sign and digits. -/
def epartOf : Option (Bool × List Nat) → List Nat
| none => []
| some (es, ed) => 0x65 :: ((if es then [0x2D] else []) ++ ed)

/-- Exponent value carried by an exponent part. -/
def expOf : Option (Bool × List Nat) → Int
| none => 0
| some (es, ed) => if es then -(digitsVal ed : Int) else (digitsVal ed : Int)


theorem list_getD_of_some (l : List Nat) (i : Nat) (c : Nat) (h : l[i]? = some c) :
    l.getD i 0 = c := by
  simp [List.getD, h]

/-- C7: decoding the lone `(` in full mode fails with `UnmatchedPair`
carrying the opener `(` at position 1, and the default-language rendering of
that error is exactly `unmatched "(" (at the end of string "(" -> EOS)`. -/
theorem c7_unmatched_paren_message :
    parseTop .Rison (strB "(") = .error ⟨.UnmatchedPair, [[0x28]], strB "(", 1⟩ ∧
    renderErrEn ⟨.UnmatchedPair, [[0x28]], strB "(", 1⟩ =
      strB "unmatched \"(\" (at the end of string \"(\" -> EOS)" := by
  refine ⟨?_, ?_⟩ <;> rfl

/-- C2: in full mode, when the top-level value just parsed is numeric and
the next unconsumed byte is an uppercase `E`, the decoder fails with the
dedicated `InvalidLargeExp` kind (not the generic extra-character error);
and each uppercase-E numeric form `1E30`, `1.5E2`, `1.5E+2`, `1.5E-2` is a
decode error. -/
theorem c2_uppercase_exponent :
    (∀ (r : List Nat) (j : JsonV) (i : Nat),
        utf8Valid r = true →
        readValue r (topFuel r.length) 0 = .ok (NodeType.numT, j, i) →
        r[i]? = some 0x45 →
        parseTop .Rison r = .error ⟨.InvalidLargeExp, [], r, (i : Int)⟩) ∧
    isErr (parseTop .Rison (strB "1E30")) = true ∧
    isErr (parseTop .Rison (strB "1.5E2")) = true ∧
    isErr (parseTop .Rison (strB "1.5E+2")) = true ∧
    isErr (parseTop .Rison (strB "1.5E-2")) = true := by
  refine ⟨?_, rfl, rfl, rfl, rfl⟩
  intro r j i h1 h2 h3
  have hi : i < r.length := (List.getElem?_eq_some.mp h3).1
  unfold parseTop
  simp only [h1, if_true, wrapMode]
  rw [h2]
  simp only [hi, if_true, list_getD_of_some r i 0x45 h3]
  simp [adjustErr, modeShift, mkErr]

theorem c2_readvalue_aux :
    readValue (strB "1E30") (topFuel (strB "1E30").length) 0 = .ok (.numT, .jnum [0x31], 1) := rfl

/-- Witness for C2: the input `1E30` satisfies the hypotheses and fails with
`InvalidLargeExp`. -/
theorem c2_uppercase_exponent_witness :
    parseTop .Rison (strB "1E30") = .error ⟨.InvalidLargeExp, [], strB "1E30", 1⟩ :=
  c2_uppercase_exponent.1 (strB "1E30") (.jnum [0x31]) 1 rfl c2_readvalue_aux rfl
theorem lookupA_upsert_eq (acc : List (List Nat × JValue)) (k : List Nat) (v : JValue) :
    lookupA k (upsert acc k v) = some v := by
  induction acc with
  | nil => simp [upsert, lookupA]
  | cons p rest ih =>
    by_cases hp : p.1 = k <;> simp [upsert, lookupA, hp, ih]

theorem lookupA_upsert_ne (acc : List (List Nat × JValue)) (k k2 : List Nat) (v : JValue)
    (h : k ≠ k2) : lookupA k2 (upsert acc k v) = lookupA k2 acc := by
  have h2 : ¬ (k = k2) := h
  induction acc with
  | nil => simp [upsert, lookupA, h2]
  | cons p rest ih =>
    by_cases hp : p.1 = k
    · have h3 : ¬ (p.1 = k2) := fun hh => h (hp ▸ hh)
      simp [upsert, lookupA, hp, h3, h2]
    · have h4 : ¬ (k2 = k) := fun hh => h hh.symm
      by_cases hq : p.1 = k2 <;> simp [upsert, lookupA, hp, hq, ih, h4]

theorem lookupA_append (k : List Nat) (l1 l2 : List (List Nat × JValue)) :
    lookupA k (l1 ++ l2) = (lookupA k l1).or (lookupA k l2) := by
  induction l1 with
  | nil => simp [lookupA]
  | cons p rest ih =>
    by_cases h : p.1 = k <;> simp [lookupA, h, ih]

theorem lookupA_dedup_aux (l : List (List Nat × JValue)) :
    ∀ (acc : List (List Nat × JValue)) (k : List Nat),
      lookupA k (List.foldl (fun a p => upsert a p.1 p.2) acc l) =
        (lookupA k l.reverse).or (lookupA k acc) := by
  induction l with
  | nil => intro acc k; simp [lookupA]
  | cons p rest ih =>
    intro acc k
    simp only [List.foldl_cons, List.reverse_cons]
    rw [ih, lookupA_append, Option.or_assoc]
    congr 1
    by_cases h : p.1 = k
    · rw [h, lookupA_upsert_eq]; simp [lookupA, h]
    · rw [lookupA_upsert_ne _ _ _ _ h]; simp [lookupA, h]

set_option maxHeartbeats 1000000 in
theorem c9_concrete_aux :
    risonDecode .Rison (strB "(a:1,a:2)") = .ok (.obj [(strB "a", .num (strB "2"))]) := rfl

/-- C9: object texts with a repeated key decode successfully (no
duplicate-key error), and the value `Decode` builds associates the repeated
key with its last occurrence: looking a key up in the decoded map equals
looking it up from the back of the member list, and the concrete input
`(a:1,a:2)` decodes to the single-member object `a ↦ 2`. -/
theorem c9_duplicate_keys_last_wins :
    (∀ (ps : List (List Nat × JValue)) (k : List Nat),
        lookupA k (dedupPairs ps) = lookupA k ps.reverse) ∧
    risonDecode .Rison (strB "(a:1,a:2)") = .ok (.obj [(strB "a", .num (strB "2"))]) := by
  constructor
  · intro ps k
    unfold dedupPairs
    rw [lookupA_dedup_aux]
    simp [lookupA]
  · exact c9_concrete_aux

theorem substrB_shape (str : List Nat) (o n : Int) :
    substrB str o n = [] ∨ ∃ a b : Nat, substrB str o n = (str.drop a).take b := by
  unfold substrB
  by_cases h0 : str.length = 0
  · simp [h0]
  · simp only [h0, if_false]
    generalize (if o < 0 then (0 : Int) else o) = l
    generalize (if (str.length : Int) < (if n < 0 then (str.length : Int) + n else o + n)
        then (str.length : Int) else (if n < 0 then (str.length : Int) + n else o + n)) = r
    by_cases hrl : r ≤ l
    · simp [hrl]
    · simp only [hrl, if_false]
      exact Or.inr ⟨l.toNat, (r - l).toNat, rfl⟩

theorem substrB_subslice (str : List Nat) (o n : Int) :
    ∃ pre post, str = pre ++ substrB str o n ++ post := by
  rcases substrB_shape str o n with h | ⟨a, b, h⟩
  · exact ⟨[], str, by simp [h]⟩
  · refine ⟨str.take a, (str.drop a).drop b, ?_⟩
    rw [h, List.append_assoc, List.take_append_drop, List.take_append_drop]

/-- C10: error rendering is total in the position: for every source and all
(possibly negative or out-of-range) offsets, the clamped context windows are
contiguous within-bounds slices of the stored source, and when the left,
center and right windows are all empty the message is rendered with no
positional suffix at all. -/
theorem c10_render_clamps_total :
    (∀ (src : List Nat) (o n : Int), ∃ pre post, src = pre ++ substrLimitedB src o n ++ post) ∧
    (∀ e : PErr,
        substrLimitedB e.src (e.pos - 5) 5 = [] →
        substrLimitedB e.src e.pos 1 = [] →
        substrLimitedB e.src (e.pos + 1) 5 = [] →
        renderErrEn e = errMsgEn e.typ e.args) := by
  constructor
  · intro src o n
    unfold substrLimitedB
    exact substrB_subslice src _ _
  · intro e hl hc hr
    unfold renderErrEn errPosSuffixEn
    simp [hl, hc, hr]

/-- Witness for C10: a position far past the end of the source (and one far
before the start) renders with the bare message. -/
theorem c10_render_clamps_total_witness :
    renderErrEn ⟨.EmptyString, [], strB "abc", 100⟩ = strB "empty string" ∧
    renderErrEn ⟨.UnmatchedPair, [[0x28]], strB "abc", -42⟩ = strB "unmatched \"(\"" := by
  constructor
  · exact (c10_render_clamps_total.2 ⟨.EmptyString, [], strB "abc", 100⟩ (by decide)
      (by decide) (by decide)).trans (by decide)
  · exact (c10_render_clamps_total.2 ⟨.UnmatchedPair, [[0x28]], strB "abc", -42⟩ (by decide)
      (by decide) (by decide)).trans (by decide)

theorem drop_eq_nil_of_none (s : List Nat) (i : Nat) (h : s[i]? = none) :
    s.drop i = [] := by
  have : s.length ≤ i := by
    by_contra hc
    push_neg at hc
    rw [List.getElem?_eq_getElem hc] at h
    cases h
  exact List.drop_eq_nil_of_le this

theorem drop_cons_of_some (s : List Nat) (i : Nat) (c : Nat) (h : s[i]? = some c) :
    s.drop i = c :: s.drop (i + 1) := by
  obtain ⟨hi, he⟩ := List.getElem?_eq_some.mp h
  rw [List.drop_eq_getElem_cons hi, he]

theorem parseQStrF_eq (s : List Nat) :
    ∀ (fuel i : Nat), s.length - i < fuel →
      parseQStrF s fuel i = qsOutcome s i (qsScan (s.drop i)) := by
  intro fuel
  induction fuel with
  | zero => intro i h; omega
  | succ fuel ih =>
    intro i h
    cases hsi : s[i]? with
    | none =>
      rw [drop_eq_nil_of_none s i hsi]
      simp [parseQStrF, hsi, qsScan, qsOutcome]
    | some c =>
      have hi : i < s.length := (List.getElem?_eq_some.mp hsi).1
      rw [drop_cons_of_some s i c hsi, qsScan.eq_def]
      by_cases hq : c = 0x27
      · simp [parseQStrF, hsi, hq, qsOutcome]
      · by_cases hb : c = 0x21
        · cases hsi2 : s[i + 1]? with
          | none =>
            rw [drop_eq_nil_of_none s (i + 1) hsi2]
            simp [parseQStrF, hsi, hb, hq, hsi2, qsOutcome]
          | some c2 =>
            rw [drop_cons_of_some s (i + 1) c2 hsi2]
            have e2 : i + 1 + 1 = i + 2 := rfl
            rw [e2]
            by_cases he : c2 = 0x21 ∨ c2 = 0x27
            · have ih2 := ih (i + 2) (by omega)
              simp only [parseQStrF, hsi, hb, hq, hsi2, he, if_true, ite_true, if_false,
                ite_false]
              rw [ih2]
              cases hscan : qsScan (s.drop (i + 2))
              all_goals simp [qsOutcome, hq, hb, he]
              all_goals (first
                | (congr 1; omega)
                | (congr 1; congr 1; omega)
                | omega)
            · simp [parseQStrF, hsi, hb, hq, hsi2, he, qsOutcome]
        · have ih1 := ih (i + 1) (by omega)
          simp only [parseQStrF, hsi, hq, hb, if_false, ite_false]
          rw [ih1]
          cases hscan : qsScan (s.drop (i + 1))
          all_goals simp [qsOutcome, hq, hb]
          all_goals (first
                | (congr 1; omega)
                | (congr 1; congr 1; omega)
                | omega)

/-- C3: for every input and start position, quoted-string parsing realizes
the specified escape discipline: the escape pair `!!` yields a literal `!`
and `!'` a literal `'` in the content, any other byte after `!` fails with
`InvalidStringEscape`, end of input before the closing `'` fails with
`UnmatchedPair` for opener `'`, and end of input directly after the escape
`!` fails with `MissingCharacterAfterEscape` — the parser equals the
specification scanner `qsScan` on the remaining input, with the documented
error kinds and positions (and, being a total function of the input, it
cannot crash or access out of bounds). -/
theorem c3_quoted_string_semantics : ∀ (s : List Nat) (i : Nat),
    parseQStr s i = qsOutcome s i (qsScan (s.drop i)) := by
  intro s i
  exact parseQStrF_eq s (s.length + 1) i (by omega)

theorem hexVal_hexUpper : ∀ n : Nat, n < 16 → hexVal (hexUpper n) = some n := by
  decide

theorem unreserved_ne_special (b : Nat) (h : urlUnreserved b = true) :
    b ≠ 0x25 ∧ b ≠ 0x2B := by
  refine ⟨fun hh => ?_, fun hh => ?_⟩ <;> subst hh <;> exact absurd h (by decide)

theorem escTable_sound : ∀ b : Nat, b < 128 → b ≠ 0x20 →
    (risonEscTable (hexUpper (b / 16)) (hexUpper (b % 16)) = none) ∨
    (risonEscTable (hexUpper (b / 16)) (hexUpper (b % 16)) = some b ∧
      b ≠ 0x25 ∧ b ≠ 0x2B) := by
  decide

theorem queryUnescape_cons_plain (b : Nat) (h25 : b ≠ 0x25) (h2B : b ≠ 0x2B)
    (tail r : List Nat) (ht : queryUnescape tail = some r) :
    queryUnescape (b :: tail) = some (b :: r) := by
  rw [queryUnescape.eq_def]
  simp [h25, h2B, ht]

theorem queryUnescape_cons_plus (tail r : List Nat) (ht : queryUnescape tail = some r) :
    queryUnescape (0x2B :: tail) = some (0x20 :: r) := by
  rw [queryUnescape.eq_def]
  simp [ht]

theorem queryUnescape_cons_pct (h1 h2 : Nat) (a v : Nat) (ha : hexVal h1 = some a)
    (hv : hexVal h2 = some v) (tail r : List Nat) (ht : queryUnescape tail = some r) :
    queryUnescape (0x25 :: h1 :: h2 :: tail) = some ((16 * a + v) :: r) := by
  rw [queryUnescape.eq_def]
  simp [ha, hv, ht]

theorem unescape_quoteByte (b : Nat) (hb : b < 128) (tail r : List Nat)
    (ht : queryUnescape tail = some r) :
    queryUnescape (quoteByte b ++ tail) = some (b :: r) := by
  by_cases hu : urlUnreserved b = true
  · obtain ⟨h25, h2B⟩ := unreserved_ne_special b hu
    have hq : quoteByte b = [b] := by unfold quoteByte; simp [hu]
    rw [hq]
    exact queryUnescape_cons_plain b h25 h2B tail r ht
  · by_cases hsp : b = 0x20
    · subst hsp
      have hq : quoteByte 0x20 = [0x2B] := by decide
      rw [hq]
      exact queryUnescape_cons_plus tail r ht
  -- the remaining bytes escape to `%XX`, possibly replaced from the table
    · have hdiv : b / 16 < 16 := by omega
      have hmod : b % 16 < 16 := by omega
      rcases escTable_sound b hb hsp with htab | ⟨htab, h25, h2B⟩
      · have hq : quoteByte b = [0x25, hexUpper (b / 16), hexUpper (b % 16)] := by
          unfold quoteByte
          simp [hu, hsp, htab]
        rw [hq]
        have := queryUnescape_cons_pct (hexUpper (b / 16)) (hexUpper (b % 16))
          (b / 16) (b % 16) (hexVal_hexUpper _ hdiv) (hexVal_hexUpper _ hmod) tail r ht
        rw [List.cons_append, List.cons_append, List.cons_append, List.nil_append]
        have hbb : 16 * (b / 16) + b % 16 = b := by omega
        rw [this, hbb]
      · have hq : quoteByte b = [b] := by
          unfold quoteByte
          simp [hu, hsp, htab]
        rw [hq]
        exact queryUnescape_cons_plain b h25 h2B tail r ht

/-- C8: for every byte string of values 0–127, percent-decoding the
`QuoteString` output with a standard URI query unescaper (which also maps
`+` back to the space) reproduces the original string exactly. -/
theorem c8_quote_unescape_roundtrip : ∀ s : List Nat, (∀ b ∈ s, b < 128) →
    queryUnescape (quoteStringB s) = some s := by
  intro s h
  induction s with
  | nil => rfl
  | cons b rest ih =>
    have hb : b < 128 := h b (by simp)
    have hrest := ih (fun x hx => h x (by simp [hx]))
    have hsplit : quoteStringB (b :: rest) = quoteByte b ++ quoteStringB rest := by
      simp [quoteStringB]
    rw [hsplit]
    exact unescape_quoteByte b hb _ _ hrest

/-- Witness for C8: the string of every byte value 0–127 (the repository's
own `TestQuoteString` input) round-trips through `QuoteString` and
`url.QueryUnescape`. -/
theorem c8_quote_unescape_roundtrip_witness :
    queryUnescape (quoteStringB (List.range 128)) = some (List.range 128) :=
  c8_quote_unescape_roundtrip (List.range 128) (fun b hb => List.mem_range.mp hb)

theorem notIDStart_contains_eq (x : Nat) :
    notIDStart.contains x = (specReserved.contains x || isDigitB x || x == 0x2D) := by
  rw [Bool.eq_iff_iff]
  simp [notIDStart, notIDChar, specReserved, isDigitB, inRange]
  omega

theorem notIDChar_eq_specReserved : notIDChar = specReserved := rfl

/-- C6: a string value is emitted bare exactly when it satisfies the spec's
identifier grammar (non-empty, first character outside the reserved-start
set, all later characters outside the reserved set): the encoder's `idOk`
equals the grammar predicate, and a non-identifier string is emitted
wrapped in single quotes with every literal `'` and `!` prefixed by `!` and
every other byte unchanged. -/
theorem c6_identifier_vs_quoted : ∀ s : List Nat,
    idOk s = specIsIdB s ∧
    writeStringB s =
      (if specIsIdB s = true then s else 0x27 :: s.flatMap escByte ++ [0x27]) := by
  intro s
  have hids : idOk s = specIsIdB s := by
    cases s with
    | nil => rfl
    | cons c rest =>
      unfold idOk specIsIdB
      dsimp only
      rw [notIDStart_contains_eq c, notIDChar_eq_specReserved]
  refine ⟨hids, ?_⟩
  unfold writeStringB
  rw [hids]

theorem dropCont_length : ∀ (k lo hi : Nat) (t t2 : List Nat),
    dropCont k lo hi t = some t2 → t2.length ≤ t.length := by
  intro k
  induction k with
  | zero => intro lo hi t t2 h; simp [dropCont] at h; simp [h]
  | succ k ih =>
    intro lo hi t t2 h
    cases t with
    | nil => simp [dropCont] at h
    | cons c t' =>
      simp only [dropCont] at h
      by_cases hc : inRange lo hi c = true
      · rw [if_pos hc] at h
        have := ih _ _ _ _ h
        simp
        omega
      · rw [if_neg hc] at h
        cases h

theorem utf8ValidF_irrel : ∀ (fuel fuel' : Nat) (t : List Nat),
    t.length < fuel → t.length < fuel' → utf8ValidF fuel t = utf8ValidF fuel' t := by
  intro fuel
  induction fuel with
  | zero => intro fuel' t h; omega
  | succ fuel ih =>
    intro fuel' t h h'
    cases fuel' with
    | zero => omega
    | succ fuel' =>
      cases t with
      | nil => simp [utf8ValidF]
      | cons b t' =>
        simp only [utf8ValidF]
        cases hn : utf8Need b with
        | none => rfl
        | some klh =>
          obtain ⟨k, lo, hi⟩ := klh
          dsimp only
          cases hd : dropCont k lo hi t' with
          | none => rfl
          | some t2 =>
            dsimp only
            have hl := dropCont_length k lo hi t' t2 hd
            have h2 : t'.length < fuel := by simp at h; omega
            have h3 : t'.length < fuel' := by simp at h'; omega
            exact ih fuel' t2 (by omega) (by omega)

theorem utf8Need_ascii (b : Nat) (h : b ≤ 0x7F) : utf8Need b = some (0, 0, 0) := by
  unfold utf8Need
  simp [h]

theorem utf8Need_lo (b k lo hi : Nat) (h : utf8Need b = some (k, lo, hi)) :
    k = 0 ∨ 0x80 ≤ lo := by
  unfold utf8Need at h
  split_ifs at h <;> (simp only [Option.some.injEq, Prod.mk.injEq] at h; omega)

theorem dropCont_append_ascii (a : Nat) (ha : a < 0x80) :
    ∀ (k lo hi : Nat), (k = 0 ∨ 0x80 ≤ lo) → ∀ t : List Nat,
      dropCont k lo hi (t ++ [a]) = (dropCont k lo hi t).map (· ++ [a]) := by
  intro k
  induction k with
  | zero => intro lo hi hk t; simp [dropCont]
  | succ k ih =>
    intro lo hi hk t
    have hlo : 0x80 ≤ lo := by omega
    cases t with
    | nil =>
      have : inRange lo hi a = false := by
        unfold inRange
        simp
        intro hle
        omega
      simp [dropCont, this]
    | cons c t' =>
      simp only [List.cons_append, dropCont]
      by_cases hc : inRange lo hi c = true
      · rw [if_pos hc, if_pos hc]
        exact ih 0x80 0xBF (Or.inr (by omega)) t'
      · rw [if_neg hc, if_neg hc]
        rfl

theorem utf8ValidF_append_ascii (a : Nat) (ha : a ≤ 0x7F) :
    ∀ (fuel : Nat) (t : List Nat), t.length < fuel →
      utf8ValidF (fuel + 1) (t ++ [a]) = utf8ValidF fuel t := by
  intro fuel
  induction fuel with
  | zero => intro t h; omega
  | succ fuel ih =>
    intro t h
    cases t with
    | nil =>
      simp [utf8ValidF, utf8Need_ascii a ha, dropCont]
    | cons b t' =>
      simp only [List.cons_append, utf8ValidF]
      cases hn : utf8Need b with
      | none => rfl
      | some klh =>
        obtain ⟨k, lo, hi⟩ := klh
        dsimp only
        simp only [List.append_eq]
        rw [dropCont_append_ascii a (by omega) k lo hi (utf8Need_lo b k lo hi hn) t']
        cases hd : dropCont k lo hi t' with
        | none => rfl
        | some t2 =>
          dsimp only [Option.map_some]
          have hl := dropCont_length k lo hi t' t2 hd
          have h2 : t'.length < fuel := by simp at h; omega
          exact ih t2 (by omega)

theorem utf8Valid_append_ascii (a : Nat) (ha : a ≤ 0x7F) (t : List Nat) :
    utf8Valid (t ++ [a]) = utf8Valid t := by
  unfold utf8Valid
  have hlen : (t ++ [a]).length = t.length + 1 := by simp
  rw [hlen]
  exact utf8ValidF_append_ascii a ha (t.length + 1) t (by omega)

theorem utf8Valid_cons_ascii (b : Nat) (hb : b ≤ 0x7F) (t : List Nat) :
    utf8Valid (b :: t) = utf8Valid t := by
  unfold utf8Valid
  simp [utf8ValidF, utf8Need_ascii b hb, dropCont]

/-- C5: decoding in O-Rison mode equals full-mode decoding of the input
wrapped in `(` `)`, and decoding in A-Rison mode equals full-mode decoding
of the input wrapped in `!(` `)`: successful decodes agree exactly, and a
failing decode reports the same error kind and arguments with the position
shifted back by the implicit prefix length (and the stored source stripped
of the wrapper), i.e. relative to the original unwrapped input. -/
theorem c5_mode_wrapping_equivalence : ∀ r : List Nat,
    (parseTop .ORison r =
      match parseTop .Rison (0x28 :: r ++ [0x29]) with
      | .ok j => .ok j
      | .error e => .error ⟨e.typ, e.args, substrB e.src 1 (-1), e.pos - 1⟩) ∧
    (parseTop .ARison r =
      match parseTop .Rison (0x21 :: 0x28 :: r ++ [0x29]) with
      | .ok j => .ok j
      | .error e => .error ⟨e.typ, e.args, substrB e.src 2 (-1), e.pos - 2⟩) := by
  intro r
  have hwo : utf8Valid (0x28 :: r ++ [0x29]) = utf8Valid r := by
    rw [List.cons_append, utf8Valid_cons_ascii 0x28 (by omega),
      utf8Valid_append_ascii 0x29 (by omega)]
  have hwa : utf8Valid (0x21 :: 0x28 :: r ++ [0x29]) = utf8Valid r := by
    rw [List.cons_append, List.cons_append, utf8Valid_cons_ascii 0x21 (by omega),
      utf8Valid_cons_ascii 0x28 (by omega), utf8Valid_append_ascii 0x29 (by omega)]
  constructor
  · unfold parseTop
    rw [hwo]
    by_cases hu : utf8Valid r = true
    · simp only [hu, if_true, wrapMode]
      cases hres : readValue (0x28 :: r ++ [0x29]) (topFuel (0x28 :: r ++ [0x29]).length) 0 with
      | error e => simp [adjustErr, modeShift]
      | ok t =>
        by_cases hlen : t.2.2 < (0x28 :: r ++ [0x29]).length
        · simp only [hlen, if_true]
          split_ifs with hC <;> simp [adjustErr, modeShift, mkErr]
        · have hlen2 : ¬t.2.2 < r.length + 1 + 1 := by simp at hlen; omega
          simp [hlen2]
    · simp [hu, adjustErr, modeShift, mkErr]
  · unfold parseTop
    rw [hwa]
    by_cases hu : utf8Valid r = true
    · simp only [hu, if_true, wrapMode]
      cases hres : readValue (0x21 :: 0x28 :: r ++ [0x29])
          (topFuel (0x21 :: 0x28 :: r ++ [0x29]).length) 0 with
      | error e => simp [adjustErr, modeShift]
      | ok t =>
        by_cases hlen : t.2.2 < (0x21 :: 0x28 :: r ++ [0x29]).length
        · simp only [hlen, if_true]
          split_ifs with hC <;> simp [adjustErr, modeShift, mkErr]
        · have hlen2 : ¬t.2.2 < r.length + 1 + 1 + 1 := by simp at hlen; omega
          simp [hlen2]
    · simp [hu, adjustErr, modeShift, mkErr]

theorem lexLt_asymm : ∀ (a b : List Nat), lexLt a b = true → lexLt b a = false := by
  intro a
  induction a with
  | nil => intro b h; cases b <;> simp [lexLt] at h ⊢
  | cons x xs ih =>
    intro b h
    cases b with
    | nil => simp [lexLt] at h
    | cons y ys =>
      simp only [lexLt] at h ⊢
      by_cases hxy : x < y
      · simp [show ¬y < x by omega, hxy]
      · by_cases hyx : y < x
        · simp [hxy, hyx] at h
        · simp [hxy, hyx] at h ⊢
          exact ih ys h

theorem lexLt_trans : ∀ (a b c : List Nat),
    lexLt a b = true → lexLt b c = true → lexLt a c = true := by
  intro a
  induction a with
  | nil =>
    intro b c h1 h2
    cases b with
    | nil => simp [lexLt] at h1
    | cons y ys => cases c with
      | nil => simp [lexLt] at h2
      | cons z zs => simp [lexLt]
  | cons x xs ih =>
    intro b c h1 h2
    cases b with
    | nil => simp [lexLt] at h1
    | cons y ys =>
      cases c with
      | nil => simp [lexLt] at h2
      | cons z zs =>
        simp only [lexLt] at h1 h2 ⊢
        by_cases hxy : x < y
        · by_cases hyz : y < z
          · simp [show x < z by omega]
          · by_cases hzy : z < y
            · simp [hyz, hzy] at h2
            · have : y = z := by omega
              subst this
              simp [hxy]
        · by_cases hyx : y < x
          · simp [hxy, hyx] at h1
          · have hxy2 : x = y := by omega
            subst hxy2
            simp at h1
            by_cases hyz : x < z
            · simp [hyz]
            · by_cases hzy : z < x
              · simp [hyz, hzy] at h2
              · simp [hyz, hzy] at h2 ⊢
                exact ih ys zs h1 h2

theorem lexLt_conn : ∀ (a b : List Nat), lexLt a b = false → lexLt b a = false → a = b := by
  intro a
  induction a with
  | nil => intro b h1 _; cases b <;> simp_all [lexLt]
  | cons x xs ih =>
    intro b h1 h2
    cases b with
    | nil => simp [lexLt] at h2
    | cons y ys =>
      simp only [lexLt] at h1 h2
      by_cases hxy : x < y
      · simp [hxy] at h1
      · by_cases hyx : y < x
        · simp [hxy, hyx] at h2
        · simp [hxy, hyx] at h1 h2
          have : x = y := by omega
          rw [this, ih ys h1 h2]

theorem lexLe_trans (p q r : List Nat) (h1 : lexLt q p = false) (h2 : lexLt r q = false) :
    lexLt r p = false := by
  by_contra hc
  simp only [Bool.not_eq_false] at hc
  by_cases hpq : lexLt p q = true
  · have := lexLt_trans r p q hc hpq
    simp [this] at h2
  · have : p = q := lexLt_conn p q (by simpa using hpq) h1
    subst this
    simp [hc] at h2

theorem insertPair_perm {α : Type} (p : List Nat × α) :
    ∀ l : List (List Nat × α), (insertPair p l).Perm (p :: l) := by
  intro l
  induction l with
  | nil => simp [insertPair]
  | cons q rest ih =>
    unfold insertPair
    by_cases h : lexLt q.1 p.1 = true
    · simp only [h, if_true]
      exact (ih.cons q).trans (List.Perm.swap p q rest)
    · have h2 : lexLt q.1 p.1 = false := by simpa using h
      simp [h2]

theorem insertPair_pairwise {α : Type} (p : List Nat × α) :
    ∀ l : List (List Nat × α), l.Pairwise (fun x y => lexLt y.1 x.1 = false) →
      (insertPair p l).Pairwise (fun x y => lexLt y.1 x.1 = false) := by
  intro l
  induction l with
  | nil => intro _; simp [insertPair]
  | cons q rest ih =>
    intro hs
    rcases List.pairwise_cons.mp hs with ⟨hq, hrest⟩
    unfold insertPair
    by_cases h : lexLt q.1 p.1 = true
    · simp only [h, if_true]
      refine List.pairwise_cons.mpr ⟨?_, ih hrest⟩
      intro x hx
      have hx2 : x ∈ p :: rest := (insertPair_perm p rest).mem_iff.mp hx
      rcases List.mem_cons.mp hx2 with rfl | hxr
      · exact lexLt_asymm q.1 x.1 h
      · exact hq x hxr
    · have hqp : lexLt q.1 p.1 = false := by simpa using h
      simp only [hqp, Bool.false_eq_true, if_false]
      refine List.pairwise_cons.mpr ⟨?_, hs⟩
      intro x hx
      rcases List.mem_cons.mp hx with rfl | hxr
      · exact hqp
      · exact lexLe_trans p.1 q.1 x.1 hqp (hq x hxr)

theorem sortPairsB_perm {α : Type} : ∀ l : List (List Nat × α), (sortPairsB l).Perm l := by
  intro l
  induction l with
  | nil => simp [sortPairsB]
  | cons p rest ih =>
    unfold sortPairsB
    exact (insertPair_perm p (sortPairsB rest)).trans (ih.cons p)

theorem sortPairsB_pairwise {α : Type} : ∀ l : List (List Nat × α),
    (sortPairsB l).Pairwise (fun x y => lexLt y.1 x.1 = false) := by
  intro l
  induction l with
  | nil => simp [sortPairsB]
  | cons p rest ih =>
    unfold sortPairsB
    exact insertPair_pairwise p (sortPairsB rest) ih

theorem sortPairsB_of_pairwise {α : Type} : ∀ l : List (List Nat × α),
    l.Pairwise (fun x y => lexLt y.1 x.1 = false) → sortPairsB l = l := by
  intro l
  induction l with
  | nil => intro _; rfl
  | cons p rest ih =>
    intro hs
    rcases List.pairwise_cons.mp hs with ⟨hp, hrest⟩
    unfold sortPairsB
    rw [ih hrest]
    cases rest with
    | nil => rfl
    | cons q t =>
      unfold insertPair
      have : lexLt q.1 p.1 = false := hp q (by simp)
      simp [this]

theorem sortPairsB_idem {α : Type} (l : List (List Nat × α)) :
    sortPairsB (sortPairsB l) = sortPairsB l :=
  sortPairsB_of_pairwise _ (sortPairsB_pairwise l)

theorem encPairs_insertPair (p : List Nat × JValue) :
    ∀ l : List (List Nat × JValue),
      encPairs (insertPair p l) = insertPair (p.1, encodeValue p.2) (encPairs l) := by
  intro l
  induction l with
  | nil =>
    obtain ⟨pk, pv⟩ := p
    simp [insertPair, encPairs]
  | cons q rest ih =>
    obtain ⟨qk, qv⟩ := q
    obtain ⟨pk, pv⟩ := p
    unfold insertPair
    by_cases h : lexLt qk pk = true
    · simp only [h, if_true]
      simp [encPairs, ih, h]
    · have h2 : lexLt qk pk = false := by simpa using h
      simp [h2, encPairs]

theorem encPairs_sortPairsB : ∀ l : List (List Nat × JValue),
    encPairs (sortPairsB l) = sortPairsB (encPairs l) := by
  intro l
  induction l with
  | nil => rfl
  | cons p rest ih =>
    obtain ⟨pk, pv⟩ := p
    unfold sortPairsB
    rw [encPairs_insertPair, ih]
    rfl

theorem enc_canon : ∀ v : JValue, encodeValue (canonV v) = encodeValue v := by
  refine canonV.induct (fun v => encodeValue (canonV v) = encodeValue v)
    (fun l => encPairs (canonP l) = encPairs l)
    (fun l => encList (canonL l) = encList l)
    rfl (fun _ => rfl) (fun _ => rfl) (fun _ => rfl) ?_ ?_ rfl ?_ rfl ?_
  · intro xs h
    simp [canonV, encodeValue, canonL, h]
  · intro kvs h
    show encodeValue (.obj (sortPairsB (canonP kvs))) = encodeValue (.obj kvs)
    simp only [encodeValue]
    rw [encPairs_sortPairsB, h, sortPairsB_idem]
  · intro x xs h1 h2
    simp [canonL, encList, h1, h2]
  · intro k v rest h1 h2
    simp [canonP, encPairs, h1, h2]

theorem risonEncodeFull_eq_encodeValue : ∀ v : JValue, risonEncodeFull v = encodeValue v := by
  intro v
  cases v <;> rfl

/-- C4: encoding is canonical and deterministic — any two representations
of the same value (equal up to object member order at every level, i.e.
with equal canonical forms) encode to byte-identical output, and the member
list every object is emitted from is the ascending-by-key sort of its
members: pairwise ascending in lexical byte order and a permutation of the
original members. -/
theorem c4_canonical_deterministic_encoding :
    (∀ v w : JValue, canonV v = canonV w → risonEncodeFull v = risonEncodeFull w) ∧
    (∀ kvs : List (List Nat × List Nat),
        (sortPairsB kvs).Pairwise (fun p q => lexLt q.1 p.1 = false) ∧
        (sortPairsB kvs).Perm kvs) := by
  constructor
  · intro v w h
    rw [risonEncodeFull_eq_encodeValue, risonEncodeFull_eq_encodeValue,
      ← enc_canon v, ← enc_canon w, h]
  · intro kvs
    exact ⟨sortPairsB_pairwise kvs, sortPairsB_perm kvs⟩

/-- Witness for C4: the same two-member object presented in both member
orders encodes to the same bytes. -/
theorem c4_canonical_deterministic_encoding_witness :
    risonEncodeFull (.obj [(strB "b", .bool true), (strB "a", .num (strB "1"))]) =
      risonEncodeFull (.obj [(strB "a", .num (strB "1")), (strB "b", .bool true)]) :=
  c4_canonical_deterministic_encoding.1
    (.obj [(strB "b", .bool true), (strB "a", .num (strB "1"))])
    (.obj [(strB "a", .num (strB "1")), (strB "b", .bool true)]) rfl

theorem mapSnd_insertPair {α β : Type} (f : α → β) (p : List Nat × α) :
    ∀ l : List (List Nat × α),
      (insertPair p l).map (fun q => (q.1, f q.2)) =
        insertPair (p.1, f p.2) (l.map (fun q => (q.1, f q.2))) := by
  intro l
  induction l with
  | nil => simp [insertPair]
  | cons q rest ih =>
    unfold insertPair
    by_cases h : lexLt q.1 p.1 = true
    · simp [h, ih]
    · have h2 : lexLt q.1 p.1 = false := by simpa using h
      simp [h2, insertPair]

theorem mapSnd_sortPairsB {α β : Type} (f : α → β) :
    ∀ l : List (List Nat × α),
      (sortPairsB l).map (fun q => (q.1, f q.2)) =
        sortPairsB (l.map (fun q => (q.1, f q.2))) := by
  intro l
  induction l with
  | nil => rfl
  | cons p rest ih =>
    unfold sortPairsB
    rw [mapSnd_insertPair, ih]
    rfl

theorem jsonOfCP_eq_map : ∀ l : List (List Nat × JValue),
    jsonOfCP l = l.map (fun p => (p.1, jsonOfC p.2)) := by
  intro l
  induction l with
  | nil => rfl
  | cons p rest ih => obtain ⟨k, v⟩ := p; simp [jsonOfCP, ih]

theorem jsonToValP_eq_map : ∀ l : List (List Nat × JsonV),
    jsonToValP l = l.map (fun p => (p.1, jsonToVal p.2)) := by
  intro l
  induction l with
  | nil => rfl
  | cons p rest ih => obtain ⟨k, v⟩ := p; simp [jsonToValP, ih]

theorem canonP_eq_map : ∀ l : List (List Nat × JValue),
    canonP l = l.map (fun p => (p.1, canonV p.2)) := by
  intro l
  induction l with
  | nil => rfl
  | cons p rest ih => obtain ⟨k, v⟩ := p; simp [canonP, ih]

theorem jsonOfCP_sortPairsB (l : List (List Nat × JValue)) :
    jsonOfCP (sortPairsB l) = sortPairsB (jsonOfCP l) := by
  rw [jsonOfCP_eq_map, jsonOfCP_eq_map, mapSnd_sortPairsB]

theorem jsonToValP_sortPairsB (l : List (List Nat × JsonV)) :
    jsonToValP (sortPairsB l) = sortPairsB (jsonToValP l) := by
  rw [jsonToValP_eq_map, jsonToValP_eq_map, mapSnd_sortPairsB]

theorem canonP_sortPairsB (l : List (List Nat × JValue)) :
    canonP (sortPairsB l) = sortPairsB (canonP l) := by
  rw [canonP_eq_map, canonP_eq_map, mapSnd_sortPairsB]

theorem keys_jsonOfCP (l : List (List Nat × JValue)) :
    (jsonOfCP l).map Prod.fst = l.map Prod.fst := by
  rw [jsonOfCP_eq_map, List.map_map]
  rfl

theorem keys_jsonToValP (l : List (List Nat × JsonV)) :
    (jsonToValP l).map Prod.fst = l.map Prod.fst := by
  rw [jsonToValP_eq_map, List.map_map]
  rfl

theorem keys_canonP (l : List (List Nat × JValue)) :
    (canonP l).map Prod.fst = l.map Prod.fst := by
  rw [canonP_eq_map, List.map_map]
  rfl

theorem keys_sortPairsB_perm {α : Type} (l : List (List Nat × α)) :
    ((sortPairsB l).map Prod.fst).Perm (l.map Prod.fst) :=
  (sortPairsB_perm l).map Prod.fst

theorem canon_idem : ∀ v : JValue, canonV (canonV v) = canonV v := by
  refine canonV.induct (fun v => canonV (canonV v) = canonV v)
    (fun l => canonP (canonP l) = canonP l)
    (fun l => canonL (canonL l) = canonL l)
    rfl (fun _ => rfl) (fun _ => rfl) (fun _ => rfl) ?_ ?_ rfl ?_ rfl ?_
  · intro xs h
    simp [canonV, canonL, h]
  · intro kvs h
    show canonV (.obj (sortPairsB (canonP kvs))) = .obj (sortPairsB (canonP kvs))
    simp only [canonV]
    rw [canonP_sortPairsB, h, sortPairsB_idem]
  · intro x xs h1 h2
    simp [canonL, h1, h2]
  · intro k v rest h1 h2
    simp [canonP, h1, h2]

theorem upsert_of_not_mem (k : List Nat) (v : JValue) :
    ∀ acc : List (List Nat × JValue), k ∉ acc.map Prod.fst →
      upsert acc k v = acc ++ [(k, v)] := by
  intro acc
  induction acc with
  | nil => intro _; rfl
  | cons p rest ih =>
    intro h
    simp only [List.map_cons, List.mem_cons] at h
    push_neg at h
    unfold upsert
    rw [if_neg (by exact fun he => h.1 he.symm), ih h.2]
    rfl

theorem foldl_upsert_eq : ∀ (L acc : List (List Nat × JValue)),
    ((acc ++ L).map Prod.fst).Nodup →
      L.foldl (fun a p => upsert a p.1 p.2) acc = acc ++ L := by
  intro L
  induction L with
  | nil => intro acc _; simp
  | cons p rest ih =>
    intro acc h
    have hk : p.1 ∉ acc.map Prod.fst := by
      intro hmem
      rw [List.map_append] at h
      rcases (List.nodup_append.mp h) with ⟨-, -, hdisj⟩
      exact hdisj hmem (by simp)
    simp only [List.foldl_cons]
    rw [upsert_of_not_mem p.1 p.2 acc hk]
    have h2 : (((acc ++ [(p.1, p.2)]) ++ rest).map Prod.fst).Nodup := by
      have : (acc ++ [(p.1, p.2)]) ++ rest = acc ++ p :: rest := by simp
      rw [this]
      exact h
    rw [ih (acc ++ [(p.1, p.2)]) h2]
    simp

theorem dedupPairs_of_nodup (L : List (List Nat × JValue)) (h : (L.map Prod.fst).Nodup) :
    dedupPairs L = L := by
  unfold dedupPairs
  have := foldl_upsert_eq L [] (by simpa using h)
  simpa using this

theorem jsonToValL_jsonOfCL : ∀ xs : List JValue,
    (∀ x ∈ xs, jsonToVal (jsonOfC x) = canonV x) →
      jsonToValL (jsonOfCL xs) = canonL xs := by
  intro xs
  induction xs with
  | nil => intro _; rfl
  | cons x rest ih =>
    intro h
    simp only [jsonOfCL, jsonToValL, canonL]
    rw [h x (by simp), ih (fun y hy => h y (by simp [hy]))]

theorem jsonToValP_jsonOfCP_mem : ∀ l : List (List Nat × JValue),
    (∀ p ∈ l, jsonToVal (jsonOfC p.2) = canonV p.2) →
      jsonToValP (jsonOfCP l) = canonP l := by
  intro l
  induction l with
  | nil => intro _; rfl
  | cons p rest ih =>
    intro h
    obtain ⟨k, v⟩ := p
    simp only [jsonOfCP, jsonToValP, canonP]
    rw [h (k, v) (by simp), ih (fun q hq => h q (by simp [hq]))]

theorem jsonToVal_jsonOfC : ∀ v : JValue, WFV v → jsonToVal (jsonOfC v) = canonV v := by
  intro v hwf
  induction hwf with
  | null => rfl
  | bool b => rfl
  | num t _ => rfl
  | str s _ => rfl
  | arr xs _ ih =>
    simp only [jsonOfC, jsonToVal, canonV]
    rw [jsonToValL_jsonOfCL xs ih]
  | obj kvs hk _ hnd ih =>
    simp only [jsonOfC, jsonToVal, canonV]
    rw [jsonToValP_sortPairsB, jsonToValP_jsonOfCP_mem kvs ih]
    congr 1
    apply dedupPairs_of_nodup
    rw [(keys_sortPairsB_perm (canonP kvs)).nodup_iff, keys_canonP]
    exact hnd

theorem joinComma_cons₂ (a b : List Nat) (l : List (List Nat)) :
    joinComma (a :: b :: l) = a ++ 0x2C :: joinComma (b :: l) := rfl

theorem arr_text : ∀ (r : List JValue) (x : JValue),
    joinComma (encList (x :: r)) ++ [0x29] = encodeValue x ++ encTail r := by
  intro r
  induction r with
  | nil => intro x; simp [encList, joinComma, encTail]
  | cons y r2 ih =>
    intro x
    show joinComma (encodeValue x :: encodeValue y :: encList r2) ++ [0x29] = _
    rw [joinComma_cons₂, List.append_assoc, List.cons_append]
    show _ = encodeValue x ++ (0x2C :: (encodeValue y ++ encTail r2))
    rw [← ih y]
    rfl

theorem obj_text : ∀ (r : List (List Nat × JValue)) (k : List Nat) (v : JValue),
    joinComma (renderPairs (encPairs ((k, v) :: r))) ++ [0x29] =
      writeStringB k ++ 0x3A :: encodeValue v ++ objTail r := by
  intro r
  induction r with
  | nil =>
    intro k v
    show joinComma [writeStringB k ++ 0x3A :: encodeValue v] ++ [0x29] = _
    simp [joinComma, objTail]
  | cons p r2 ih =>
    intro k v
    obtain ⟨k2, v2⟩ := p
    have key := ih k2 v2
    show joinComma ((writeStringB k ++ 0x3A :: encodeValue v) ::
        (writeStringB k2 ++ 0x3A :: encodeValue v2) :: renderPairs (encPairs r2)) ++ [0x29] =
      writeStringB k ++ 0x3A :: encodeValue v ++
        (0x2C :: writeStringB k2 ++ 0x3A :: encodeValue v2 ++ objTail r2)
    rw [joinComma_cons₂, List.append_assoc, List.cons_append]
    rw [show joinComma ((writeStringB k2 ++ 0x3A :: encodeValue v2) ::
        renderPairs (encPairs r2)) = joinComma (renderPairs (encPairs ((k2, v2) :: r2))) from rfl]
    rw [key]
    simp

theorem needFuelP_eq_sum : ∀ l : List (List Nat × JValue),
    needFuelP l = (l.map (fun p => needFuel p.2 + 5)).sum := by
  intro l
  induction l with
  | nil => rfl
  | cons p rest ih => obtain ⟨k, v⟩ := p; simp [needFuelP, ih]

theorem needFuelP_perm (l l' : List (List Nat × JValue)) (h : l.Perm l') :
    needFuelP l = needFuelP l' := by
  rw [needFuelP_eq_sum, needFuelP_eq_sum]
  exact (h.map _).sum_eq

theorem objTail_len_sum : ∀ l : List (List Nat × JValue),
    (objTail l).length =
      (l.map (fun p => 2 + (writeStringB p.1).length + (encodeValue p.2).length)).sum + 1 := by
  intro l
  induction l with
  | nil => rfl
  | cons p rest ih => obtain ⟨k, v⟩ := p; simp [objTail, ih]; omega

theorem objTail_len_perm (l l' : List (List Nat × JValue)) (h : l.Perm l') :
    (objTail l).length = (objTail l').length := by
  rw [objTail_len_sum, objTail_len_sum, (h.map _).sum_eq]

theorem needFuel_le : ∀ v : JValue, needFuel v ≤ 4 * (encodeValue v).length + 2 := by
  refine needFuel.induct (fun v => needFuel v ≤ 4 * (encodeValue v).length + 2)
    (fun pl => needFuelP pl + 4 ≤ 4 * (objTail pl).length)
    (fun xs => needFuelL xs + 4 ≤ 4 * (encTail xs).length)
    ?_ ?_ ?_ ?_ ?_ ?_ ?_ ?_ ?_ ?_
  · decide
  · intro b
    cases b <;> decide
  · intro t
    show 2 ≤ 4 * (encodeValue (.num t)).length + 2
    omega
  · intro s
    show 2 ≤ 4 * (encodeValue (.str s)).length + 2
    omega
  · intro xs ih
    show 4 + needFuelL xs ≤ 4 * (encodeValue (.arr xs)).length + 2
    cases xs with
    | nil => simp [needFuelL, encodeValue, encList, joinComma]
    | cons x r =>
      have hlen : (encodeValue (.arr (x :: r))).length =
          2 + (joinComma (encList (x :: r))).length + 1 := by
        show (0x21 :: 0x28 :: (joinComma (encList (x :: r)) ++ [0x29])).length = _
        simp
        omega
      have htext := congrArg List.length (arr_text r x)
      simp only [List.length_append, List.length_cons, List.length_nil] at htext
      have het : (encTail (x :: r)).length =
          1 + (encodeValue x).length + (encTail r).length := by
        show (0x2C :: (encodeValue x ++ encTail r)).length = _
        simp
        omega
      rw [het] at ih
      have hetr : 1 ≤ (encTail r).length := by
        cases r <;> simp [encTail]
      omega
  · intro kvs ih
    show 4 + needFuelP kvs ≤ 4 * (encodeValue (.obj kvs)).length + 2
    have hperm := sortPairsB_perm kvs
    have hnf : needFuelP kvs = needFuelP (sortPairsB kvs) := needFuelP_perm _ _ hperm.symm
    have hot : (objTail kvs).length = (objTail (sortPairsB kvs)).length :=
      objTail_len_perm _ _ hperm.symm
    have hsort : sortPairsB (encPairs kvs) = encPairs (sortPairsB kvs) :=
      (encPairs_sortPairsB kvs).symm
    have hlen : (encodeValue (.obj kvs)).length =
        1 + (joinComma (renderPairs (sortPairsB (encPairs kvs)))).length + 1 := by
      show (0x28 :: (joinComma (renderPairs (sortPairsB (encPairs kvs))) ++ [0x29])).length = _
      simp
      omega
    rw [hsort] at hlen
    rw [hnf] at ih ⊢
    rw [hot] at ih
    cases hpl : sortPairsB kvs with
    | nil =>
      rw [hpl] at ih hlen
      have h0 : (joinComma (renderPairs (encPairs ([] : List (List Nat × JValue))))).length = 0 :=
        rfl
      have h1 : needFuelP ([] : List (List Nat × JValue)) = 0 := rfl
      omega
    | cons p r =>
      obtain ⟨k, v⟩ := p
      rw [hpl] at ih hlen
      have htext := congrArg List.length (obj_text r k v)
      simp only [List.length_append, List.length_cons, List.length_nil] at htext
      have hot2 : (objTail ((k, v) :: r)).length =
          1 + (writeStringB k).length + 1 + (encodeValue v).length + (objTail r).length := by
        show (0x2C :: (writeStringB k ++ 0x3A :: encodeValue v ++ objTail r)).length = _
        simp
        omega
      rw [hot2] at ih
      omega
  · show needFuelL [] + 4 ≤ 4 * (encTail []).length
    show 0 + 4 ≤ 4 * 1
    omega
  · intro x xs ih1 ih2
    show needFuel x + 2 + needFuelL xs + 4 ≤ 4 * (encTail (x :: xs)).length
    have : (encTail (x :: xs)).length = 1 + (encodeValue x).length + (encTail xs).length := by
      show (0x2C :: (encodeValue x ++ encTail xs)).length = _
      simp
      omega
    omega
  · show needFuelP [] + 4 ≤ 4 * (objTail []).length
    show 0 + 4 ≤ 4 * 1
    omega
  · intro k v rest ih1 ih2
    show needFuel v + 5 + needFuelP rest + 4 ≤ 4 * (objTail ((k, v) :: rest)).length
    have : (objTail ((k, v) :: rest)).length =
        1 + (writeStringB k).length + 1 + (encodeValue v).length + (objTail rest).length := by
      show (0x2C :: (writeStringB k ++ 0x3A :: encodeValue v ++ objTail rest)).length = _
      simp
      omega
    omega

theorem sliceAt_drop (s : List Nat) (i : Nat) (e : List Nat) (h : sliceAt s i e) :
    ∃ post, s.drop i = e ++ post := by
  obtain ⟨pre, post, hs, hlen⟩ := h
  refine ⟨post, ?_⟩
  subst hs hlen
  rw [List.append_assoc, List.drop_left]

theorem drop_byte (s : List Nat) (i c : Nat) (rest : List Nat) (h : s.drop i = c :: rest) :
    s[i]? = some c ∧ s.drop (i + 1) = rest := by
  constructor
  · have h0 : s[i]? = (s.drop i)[0]? := by simp [List.getElem?_drop]
    rw [h0, h]
    simp
  · have h1 := List.drop_drop 1 i s
    rw [h] at h1
    simpa using h1.symm

theorem drop_len_le (s : List Nat) (i : Nat) (e post : List Nat)
    (h : s.drop i = e ++ post) (hi : i ≤ s.length) : i + e.length + post.length = s.length := by
  have := congrArg List.length h
  simp [List.length_drop] at this
  omega

theorem idTake_nil_of_stop : ∀ tail : List Nat,
    (∀ c, tail.head? = some c → notIDChar.contains c = true) → idTake tail = [] := by
  intro tail h
  cases tail with
  | nil => rfl
  | cons c r =>
    have hmem : c ∈ notIDChar := by simpa using h c rfl
    simp [idTake, hmem]

theorem idTake_append : ∀ (id tail : List Nat),
    (∀ c ∈ id, notIDChar.contains c = false) →
    (∀ c, tail.head? = some c → notIDChar.contains c = true) →
      idTake (id ++ tail) = id := by
  intro id
  induction id with
  | nil => intro tail _ h2; exact idTake_nil_of_stop tail h2
  | cons c r ih =>
    intro tail h1 h2
    have hc : notIDChar.contains c = false := h1 c (by simp)
    have hmem : c ∉ notIDChar := by simpa using hc
    simp only [List.cons_append, idTake]
    rw [if_neg (by simpa using hmem)]
    show c :: idTake (r ++ tail) = c :: r
    rw [ih tail (fun x hx => h1 x (by simp [hx])) h2]

theorem idRunF_eq (s : List Nat) : ∀ (fuel i : Nat), s.length - i < fuel →
    idRunF s fuel i = (idTake (s.drop i), i + (idTake (s.drop i)).length) := by
  intro fuel
  induction fuel with
  | zero => intro i h; omega
  | succ fuel ih =>
    intro i h
    cases hsi : s[i]? with
    | none =>
      rw [drop_eq_nil_of_none s i hsi]
      simp [idRunF, hsi, idTake]
    | some c =>
      have hi : i < s.length := (List.getElem?_eq_some.mp hsi).1
      rw [drop_cons_of_some s i c hsi]
      by_cases hc : notIDChar.contains c = true
      · have hmem : c ∈ notIDChar := by simpa using hc
        simp [idRunF, hsi, idTake, hmem]
      · have hmem : c ∉ notIDChar := by simpa using hc
        have ih1 := ih (i + 1) (by omega)
        simp only [idRunF, hsi, ih1, idTake]
        rw [if_neg (by simpa using hmem), if_neg (by simpa using hmem)]
        simp only [Prod.mk.injEq, List.length_cons]
        refine ⟨by simp, by omega⟩

theorem parseID_slice (s : List Nat) (i c : Nat) (rest tail : List Nat)
    (hdrop : s.drop i = (c :: rest) ++ tail)
    (hok : idOk (c :: rest) = true)
    (hstop : ∀ c2, tail.head? = some c2 → notIDChar.contains c2 = true) :
    parseID s i = some (c :: rest, i + (c :: rest).length) := by
  simp only [idOk, Bool.and_eq_true, Bool.not_eq_eq_eq_not, Bool.not_true,
    List.all_eq_true] at hok
  obtain ⟨hstart, hrest⟩ := hok
  have hbyte := drop_byte s i c (rest ++ tail) (by simpa using hdrop)
  unfold parseID
  rw [hbyte.1]
  simp only [hstart, Bool.false_eq_true, if_false]
  unfold idRun
  rw [idRunF_eq s (s.length + 1) (i + 1) (by omega), hbyte.2,
    idTake_append rest tail (fun x hx => by simpa using hrest x hx) hstop]
  simp
  omega

theorem qsScan_escaped : ∀ (cs tail : List Nat),
    qsScan (cs.flatMap escByte ++ 0x27 :: tail) =
      .okQ cs ((cs.flatMap escByte).length + 1) := by
  intro cs
  induction cs with
  | nil =>
    intro tail
    show qsScan ([] ++ 0x27 :: tail) = _
    rw [List.nil_append, qsScan.eq_def]
    simp
  | cons c cs ih =>
    intro tail
    by_cases hc : c = 0x27 ∨ c = 0x21
    · have hesc : escByte c = [0x21, c] := by simp [escByte, hc]
      have hflat : (c :: cs).flatMap escByte = 0x21 :: c :: cs.flatMap escByte := by
        simp [List.flatMap_cons, hesc]
      rw [hflat]
      show qsScan (0x21 :: c :: (cs.flatMap escByte ++ 0x27 :: tail)) = _
      rw [qsScan.eq_def]
      have h21 : (0x21 : Nat) ≠ 0x27 := by omega
      simp only [h21, if_false, ite_false, if_true, ite_true]
      rw [if_pos hc.symm]
      rw [ih tail]
      simp
    · push_neg at hc
      have hesc : escByte c = [c] := by simp [escByte, hc.1, hc.2]
      have hflat : (c :: cs).flatMap escByte = c :: cs.flatMap escByte := by
        simp [List.flatMap_cons, hesc]
      rw [hflat]
      show qsScan (c :: (cs.flatMap escByte ++ 0x27 :: tail)) = _
      rw [qsScan.eq_def]
      simp only [hc.1, hc.2, if_false, ite_false]
      rw [ih tail]
      simp

theorem parseQStr_slice (s : List Nat) (i : Nat) (cs tail : List Nat)
    (hdrop : s.drop i = cs.flatMap escByte ++ 0x27 :: tail) :
    parseQStr s i = .ok (cs, i + (cs.flatMap escByte).length + 1) := by
  unfold parseQStr
  rw [parseQStrF_eq s (s.length + 1) i (by omega), hdrop, qsScan_escaped cs tail]
  rfl

theorem readValue_str (k : List Nat) (s : List Nat) (i fuel : Nat) (tail : List Nat)
    (hdrop : s.drop i = writeStringB k ++ tail)
    (hstop : ∀ c, tail.head? = some c → notIDChar.contains c = true)
    (hfuel : 1 ≤ fuel) :
    parseRec s fuel (.rv i) = .ok (.strT, .jstr k, i + (writeStringB k).length) := by
  obtain ⟨f, rfl⟩ : ∃ f, fuel = f + 1 := ⟨fuel - 1, by omega⟩
  by_cases hok : idOk k = true
  · rw [writeStringB, if_pos hok] at hdrop
    obtain ⟨c, rest, rfl⟩ : ∃ c rest, k = c :: rest := by
      cases k with
      | nil => simp [idOk] at hok
      | cons c rest => exact ⟨c, rest, rfl⟩
    have hbyte := drop_byte s i c (rest ++ tail) (by simpa using hdrop)
    have hstart : notIDStart.contains c = false := by
      simp only [idOk, Bool.and_eq_true, Bool.not_eq_eq_eq_not, Bool.not_true] at hok
      exact hok.1
    have hfacts : c ≠ 0x21 ∧ c ≠ 0x28 ∧ c ≠ 0x27 ∧ c ≠ 0x2D ∧ isDigitB c = false := by
      simp [notIDStart, notIDChar, isDigitB, inRange] at hstart
      refine ⟨by omega, by omega, by omega, by omega, ?_⟩
      simp [isDigitB, inRange]
      omega
    show parseRec s (f + 1) (.rv i) = _
    rw [parseRec]
    simp only [nextc, hbyte.1]
    simp only [hfacts.1, hfacts.2.1, hfacts.2.2.1, hfacts.2.2.2.1, hfacts.2.2.2.2,
      if_false, ite_false, Bool.false_eq_true, or_self]
    rw [parseID_slice s i c rest tail hdrop hok hstop]
    rw [writeStringB, if_pos hok]
  · have hok2 : idOk k = false := by simpa using hok
    rw [writeStringB, if_neg (by simp [hok2])] at hdrop
    have hdrop2 : s.drop i = 0x27 :: (k.flatMap escByte ++ 0x27 :: tail) := by
      rw [hdrop]
      simp
    have hbyte := drop_byte s i 0x27 _ hdrop2
    show parseRec s (f + 1) (.rv i) = _
    rw [parseRec]
    simp only [nextc, hbyte.1]
    have h1 : (0x27 : Nat) ≠ 0x21 := by omega
    have h2 : (0x27 : Nat) ≠ 0x28 := by omega
    simp only [h1, h2, if_false, ite_false, if_true, ite_true]
    rw [parseQStr_slice s (i + 1) k tail hbyte.2]
    rw [writeStringB, if_neg (by simp [hok2])]
    simp
    omega

theorem utf8Need_char (b k lo hi : Nat) (h : utf8Need b = some (k, lo, hi)) :
    (k = 0 ∧ b ≤ 0x7F) ∨ (1 ≤ k ∧ 0xC2 ≤ b ∧ 0x80 ≤ lo ∧ hi ≤ 0xBF) := by
  unfold utf8Need at h
  split_ifs at h <;> (simp only [Option.some.injEq, Prod.mk.injEq] at h; omega)

theorem inRange_iff (lo hi b : Nat) : inRange lo hi b = true ↔ lo ≤ b ∧ b ≤ hi := by
  simp [inRange]

theorem utf8Valid_cons_eq (b k lo hi : Nat) (t t2 : List Nat)
    (hn : utf8Need b = some (k, lo, hi)) (hd : dropCont k lo hi t = some t2) :
    utf8Valid (b :: t) = utf8Valid t2 := by
  unfold utf8Valid
  show utf8ValidF (t.length + 1 + 1) (b :: t) = _
  rw [utf8ValidF]
  simp only [hn, hd]
  exact utf8ValidF_irrel (t.length + 1) (t2.length + 1) t2
    (by have := dropCont_length k lo hi t t2 hd; omega) (by omega)

theorem utf8Valid_cons_elim (b : Nat) (t : List Nat) (h : utf8Valid (b :: t) = true) :
    ∃ k lo hi t2, utf8Need b = some (k, lo, hi) ∧ dropCont k lo hi t = some t2 ∧
      utf8Valid t2 = true := by
  unfold utf8Valid at h
  rw [show (b :: t).length = t.length + 1 from rfl, utf8ValidF] at h
  cases hn : utf8Need b with
  | none => rw [hn] at h; cases h
  | some klh =>
    obtain ⟨k, lo, hi⟩ := klh
    rw [hn] at h
    cases hd : dropCont k lo hi t with
    | none => simp only [hd] at h; cases h
    | some t2 =>
      simp only [hd] at h
      refine ⟨k, lo, hi, t2, rfl, hd, ?_⟩
      unfold utf8Valid
      rw [utf8ValidF_irrel (t2.length + 1) (t.length + 1) t2 (by omega)
        (by have := dropCont_length k lo hi t t2 hd; omega)]
      exact h

theorem dropCont_append : ∀ (k lo hi : Nat) (t t2 b : List Nat),
    dropCont k lo hi t = some t2 → dropCont k lo hi (t ++ b) = some (t2 ++ b) := by
  intro k
  induction k with
  | zero =>
    intro lo hi t t2 b h
    simp [dropCont] at h
    simp [dropCont, h]
  | succ k ih =>
    intro lo hi t t2 b h
    cases t with
    | nil => simp [dropCont] at h
    | cons c t' =>
      simp only [dropCont] at h
      by_cases hc : inRange lo hi c = true
      · rw [if_pos hc] at h
        simp only [List.cons_append, dropCont]
        rw [if_pos hc]
        exact ih 0x80 0xBF t' t2 b h
      · rw [if_neg hc] at h
        cases h

theorem utf8Valid_append : ∀ (n : Nat) (a : List Nat), a.length ≤ n →
    utf8Valid a = true → ∀ b, utf8Valid (a ++ b) = utf8Valid b := by
  intro n
  induction n with
  | zero =>
    intro a ha hv b
    have : a = [] := List.eq_nil_of_length_eq_zero (by omega)
    subst this
    rfl
  | succ n ih =>
    intro a ha hv b
    cases a with
    | nil => rfl
    | cons c t =>
      obtain ⟨k, lo, hi, t2, hn, hd, hv2⟩ := utf8Valid_cons_elim c t hv
      have hlen := dropCont_length k lo hi t t2 hd
      have h1 : utf8Valid ((c :: t) ++ b) = utf8Valid (t2 ++ b) := by
        rw [List.cons_append]
        exact utf8Valid_cons_eq c k lo hi (t ++ b) (t2 ++ b) hn
          (dropCont_append k lo hi t t2 b hd)
      rw [h1]
      exact ih t2 (by simp at ha; omega) hv2 b

theorem utf8Valid_all_ascii : ∀ l : List Nat, (∀ b ∈ l, b ≤ 0x7F) → utf8Valid l = true := by
  intro l
  induction l with
  | nil => intro _; rfl
  | cons c t ih =>
    intro h
    rw [utf8Valid_cons_ascii c (h c (by simp)) t]
    exact ih (fun b hb => h b (by simp [hb]))

theorem dropCont_flatMap_esc : ∀ (k lo hi : Nat) (t t2 : List Nat), 0x80 ≤ lo →
    dropCont k lo hi t = some t2 →
      dropCont k lo hi (t.flatMap escByte) = some (t2.flatMap escByte) := by
  intro k
  induction k with
  | zero =>
    intro lo hi t t2 _ h
    simp [dropCont] at h
    simp [dropCont, h]
  | succ k ih =>
    intro lo hi t t2 hlo h
    cases t with
    | nil => simp [dropCont] at h
    | cons c t' =>
      simp only [dropCont] at h
      by_cases hc : inRange lo hi c = true
      · rw [if_pos hc] at h
        have hcge : 0x80 ≤ c := by
          have := (inRange_iff lo hi c).mp hc
          omega
        have hesc : escByte c = [c] := by
          unfold escByte
          rw [if_neg (by omega)]
        have hflat : (c :: t').flatMap escByte = c :: t'.flatMap escByte := by
          simp [List.flatMap_cons, hesc]
        rw [hflat]
        simp only [dropCont]
        rw [if_pos hc]
        exact ih 0x80 0xBF t' t2 (by omega) h
      · rw [if_neg hc] at h
        cases h

theorem utf8Valid_flatMap_esc : ∀ (n : Nat) (s : List Nat), s.length ≤ n →
    utf8Valid s = true → utf8Valid (s.flatMap escByte) = true := by
  intro n
  induction n with
  | zero =>
    intro s hs _
    have : s = [] := List.eq_nil_of_length_eq_zero (by omega)
    subst this
    rfl
  | succ n ih =>
    intro s hs hv
    cases s with
    | nil => rfl
    | cons c t =>
      obtain ⟨k, lo, hi, t2, hn, hd, hv2⟩ := utf8Valid_cons_elim c t hv
      have hlen := dropCont_length k lo hi t t2 hd
      rcases utf8Need_char c k lo hi hn with ⟨hk0, hascii⟩ | ⟨hk1, hcge, hlo, hhi⟩
      · subst hk0
        have ht2 : t = t2 := by simpa [dropCont] using hd
        subst ht2
        have hflat : (c :: t).flatMap escByte = escByte c ++ t.flatMap escByte := by
          simp [List.flatMap_cons]
        rw [hflat]
        have hrest : utf8Valid (t.flatMap escByte) = true :=
          ih t (by simp at hs; omega) hv2
        unfold escByte
        by_cases hc : c = 0x27 ∨ c = 0x21
        · rw [if_pos hc]
          show utf8Valid (0x21 :: c :: t.flatMap escByte) = true
          rw [utf8Valid_cons_ascii 0x21 (by omega), utf8Valid_cons_ascii c (by omega)]
          exact hrest
        · rw [if_neg hc]
          show utf8Valid (c :: t.flatMap escByte) = true
          rw [utf8Valid_cons_ascii c (by omega)]
          exact hrest
      · have hesc : escByte c = [c] := by
          unfold escByte
          rw [if_neg (by omega)]
        have hflat : (c :: t).flatMap escByte = c :: t.flatMap escByte := by
          simp [List.flatMap_cons, hesc]
        rw [hflat]
        rw [utf8Valid_cons_eq c k lo hi (t.flatMap escByte) (t2.flatMap escByte) hn
          (dropCont_flatMap_esc k lo hi t t2 hlo hd)]
        exact ih t2 (by simp at hs; omega) hv2

theorem writeStringB_valid (s : List Nat) (h : utf8Valid s = true) :
    utf8Valid (writeStringB s) = true := by
  unfold writeStringB
  by_cases hok : idOk s = true
  · rw [if_pos hok]
    exact h
  · rw [if_neg hok]
    show utf8Valid (0x27 :: (s.flatMap escByte ++ [0x27])) = true
    rw [utf8Valid_cons_ascii 0x27 (by omega),
      utf8Valid_append (s.flatMap escByte).length (s.flatMap escByte) (by omega)
        (utf8Valid_flatMap_esc s.length s (by omega) h) [0x27]]
    rfl

theorem natDecAux_spec : ∀ (fuel n : Nat), n ≤ fuel → lsbVal (natDecAux fuel n) = n := by
  intro fuel
  induction fuel with
  | zero => intro n h; interval_cases n; rfl
  | succ fuel ih =>
    intro n h
    cases n with
    | zero => rfl
    | succ m =>
      show lsbVal ((m + 1) % 10 :: natDecAux fuel ((m + 1) / 10)) = m + 1
      show (m + 1) % 10 + 10 * lsbVal (natDecAux fuel ((m + 1) / 10)) = m + 1
      rw [ih ((m + 1) / 10) (by omega)]
      omega

theorem natDecAux_lt : ∀ (fuel n : Nat), ∀ d ∈ natDecAux fuel n, d < 10 := by
  intro fuel
  induction fuel with
  | zero => intro n d hd; simp [natDecAux] at hd
  | succ fuel ih =>
    intro n d hd
    cases n with
    | zero => simp [natDecAux] at hd
    | succ m =>
      simp only [natDecAux, List.mem_cons] at hd
      rcases hd with rfl | hd
      · omega
      · exact ih _ d hd

theorem foldl_dig : ∀ (ds : List Nat) (a : Nat),
    List.foldl (fun x b => 10 * x + (b - 0x30)) a (ds.map (· + 0x30)) =
      List.foldl (fun x d => 10 * x + d) a ds := by
  intro ds
  induction ds with
  | nil => intro a; rfl
  | cons d r ih =>
    intro a
    simp only [List.map_cons, List.foldl_cons]
    rw [show d + 0x30 - 0x30 = d from by omega]
    exact ih _

theorem foldl_rev : ∀ (ds : List Nat) (a : Nat),
    List.foldl (fun x d => 10 * x + d) a ds.reverse = a * 10 ^ ds.length + lsbVal ds := by
  intro ds
  induction ds with
  | nil => intro a; simp [lsbVal]
  | cons d r ih =>
    intro a
    simp only [List.reverse_cons, List.foldl_append, List.foldl_cons, List.foldl_nil]
    rw [ih a]
    show 10 * (a * 10 ^ r.length + lsbVal r) + d = a * 10 ^ (r.length + 1) + lsbVal (d :: r)
    rw [pow_succ]
    show _ = a * (10 ^ r.length * 10) + (d + 10 * lsbVal r)
    ring

theorem digitsVal_natDecB (n : Nat) : digitsVal (natDecB n) = n := by
  unfold natDecB digitsVal
  by_cases h : n = 0
  · rw [if_pos h, h]
    rfl
  · rw [if_neg h, foldl_dig, foldl_rev, natDecAux_spec n n (le_refl n)]
    simp

theorem natDecB_digits (n : Nat) : ∀ b ∈ natDecB n, isDigitB b = true := by
  intro b hb
  unfold natDecB at hb
  by_cases h : n = 0
  · rw [if_pos h] at hb
    simp at hb
    subst hb
    rfl
  · rw [if_neg h] at hb
    simp only [List.mem_map, List.mem_reverse] at hb
    obtain ⟨d, hd, rfl⟩ := hb
    have := natDecAux_lt n n d hd
    simp [isDigitB, inRange]
    omega

theorem natDecB_ne_nil (n : Nat) : natDecB n ≠ [] := by
  unfold natDecB
  by_cases h : n = 0
  · rw [if_pos h]
    simp
  · rw [if_neg h]
    simp only [ne_eq, List.map_eq_nil_iff, List.reverse_eq_nil_iff]
    intro hnil
    have := natDecAux_spec n n (le_refl n)
    rw [hnil] at this
    exact h (by simpa [lsbVal] using this.symm)

theorem spanDigits_append : ∀ (ds rest : List Nat),
    (∀ b ∈ ds, isDigitB b = true) →
    (∀ c, rest.head? = some c → isDigitB c = false) →
      spanDigits (ds ++ rest) = (ds, rest) := by
  intro ds
  induction ds with
  | nil =>
    intro rest _ h2
    cases rest with
    | nil => rfl
    | cons c r =>
      have := h2 c rfl
      simp [spanDigits, this]
  | cons d r ih =>
    intro rest h1 h2
    have hd : isDigitB d = true := h1 d (by simp)
    simp only [List.cons_append, spanDigits, hd, if_true]
    have hconv : r.append rest = r ++ rest := rfl
    rw [hconv, ih rest (fun b hb => h1 b (by simp [hb])) h2]

theorem spanDigits_all : ∀ l : List Nat, ∀ b ∈ (spanDigits l).1, isDigitB b = true := by
  intro l
  induction l with
  | nil => intro b hb; simp [spanDigits] at hb
  | cons c r ih =>
    intro b hb
    by_cases hc : isDigitB c = true
    · simp only [spanDigits, hc, if_true] at hb
      rcases List.mem_cons.mp hb with rfl | hb2
      · exact hc
      · exact ih b hb2
    · have hc2 : isDigitB c = false := by simpa using hc
      simp only [spanDigits, hc2, Bool.false_eq_true, if_false] at hb
      simp at hb

theorem lexNumF_step (s : List Nat) (fuel : Nat) (st : NumState) (signs : List Nat)
    (i c : Nat) (hsi : s[i]? = some c) :
    lexNumF s (fuel + 1) st signs i =
      if isDigitB c then lexNumF s fuel st signs (i + 1)
      else if signs.contains c then lexNumF s fuel st [] (i + 1)
      else
        match st with
        | .intS =>
          if c = 0x2E then lexNumF s fuel .fracS signs (i + 1)
          else if c = 0x65 then lexNumF s fuel .expS [0x2D] (i + 1)
          else i
        | .fracS =>
          if c = 0x65 then lexNumF s fuel .expS [0x2D] (i + 1)
          else i
        | .expS => i := by
  simp only [lexNumF, hsi]

theorem lexConsume_step (st : NumState) (signs : List Nat) (c : Nat) (r : List Nat) :
    lexConsume st signs (c :: r) =
      if isDigitB c then lexConsume st signs r + 1
      else if signs.contains c then lexConsume st [] r + 1
      else
        match st with
        | .intS =>
          if c = 0x2E then lexConsume .fracS signs r + 1
          else if c = 0x65 then lexConsume .expS [0x2D] r + 1
          else 0
        | .fracS =>
          if c = 0x65 then lexConsume .expS [0x2D] r + 1
          else 0
        | .expS => 0 := by
  rw [lexConsume.eq_def]

theorem lexNumF_eq (s : List Nat) : ∀ (fuel : Nat) (st : NumState) (signs : List Nat) (i : Nat),
    s.length - i < fuel →
      lexNumF s fuel st signs i = i + lexConsume st signs (s.drop i) := by
  intro fuel
  induction fuel with
  | zero => intro st signs i h; omega
  | succ fuel ih =>
    intro st signs i h
    cases hsi : s[i]? with
    | none =>
      rw [drop_eq_nil_of_none s i hsi]
      simp [lexNumF, hsi, lexConsume]
    | some c =>
      have hi : i < s.length := (List.getElem?_eq_some.mp hsi).1
      rw [drop_cons_of_some s i c hsi, lexNumF_step s fuel st signs i c hsi,
        lexConsume_step st signs c (s.drop (i + 1))]
      cases st with
      | intS =>
        dsimp only
        split_ifs with h1 h2 h3 h4 <;>
          first
          | (rw [ih _ _ (i + 1) (by omega)]; omega)
          | omega
      | fracS =>
        dsimp only
        split_ifs with h1 h2 h3 <;>
          first
          | (rw [ih _ _ (i + 1) (by omega)]; omega)
          | omega
      | expS =>
        dsimp only
        split_ifs with h1 h2 <;>
          first
          | (rw [ih _ _ (i + 1) (by omega)]; omega)
          | omega

theorem lexConsume_digits : ∀ (ds : List Nat) (st : NumState) (signs rest : List Nat),
    (∀ b ∈ ds, isDigitB b = true) →
      lexConsume st signs (ds ++ rest) = ds.length + lexConsume st signs rest := by
  intro ds
  induction ds with
  | nil => intro st signs rest _; simp
  | cons d r ih =>
    intro st signs rest h
    have hd : isDigitB d = true := h d (by simp)
    rw [List.cons_append, lexConsume.eq_def]
    simp only [hd, if_true, ite_true]
    rw [ih st signs rest (fun b hb => h b (by simp [hb]))]
    simp
    omega

theorem lexConsume_stop : ∀ (st : NumState) (signs rest : List Nat),
    (signs = [] ∨ signs = [0x2D]) →
    (∀ c, rest.head? = some c → c = 0x2C ∨ c = 0x29 ∨ c = 0x3A) →
      lexConsume st signs rest = 0 := by
  intro st signs rest hsigns hstop
  cases rest with
  | nil => rfl
  | cons c r =>
    have hc := hstop c rfl
    have hdig : isDigitB c = false := by
      simp [isDigitB, inRange]
      omega
    have hsgn : signs.contains c = false := by
      rcases hsigns with rfl | rfl
      · rfl
      · simp
        omega
    have hnmem : c ∉ signs := by simpa using hsgn
    have h46 : c ≠ 0x2E := by omega
    have h101 : c ≠ 0x65 := by omega
    rw [lexConsume_step]
    cases st with
    | intS => simp [hdig, hnmem, h46, h101]
    | fracS => simp [hdig, hnmem, h101]
    | expS => simp [hdig, hnmem]

theorem map_add_sub_digits : ∀ l : List Nat,
    (l.map (· + 0x30)).map (· - 0x30) = l := by
  intro l
  induction l with
  | nil => rfl
  | cons d r ih =>
    show (d + 0x30 - 0x30) :: (r.map (· + 0x30)).map (· - 0x30) = d :: r
    rw [ih, show d + 0x30 - 0x30 = d from by omega]

theorem map_sub_replicate (n : Nat) :
    ((List.replicate n 0x30).map (· - 0x30)) = List.replicate n 0 := by
  rw [List.map_replicate]

theorem clz_of_head_ne (l : List Nat) (h : l.head? ≠ some 0) : countLeadZeros l = 0 := by
  cases l with
  | nil => rfl
  | cons d r =>
    have : d ≠ 0 := fun he => h (by simp [he])
    simp [countLeadZeros, this]

theorem clz_replicate_append : ∀ (n : Nat) (l : List Nat),
    countLeadZeros (List.replicate n 0 ++ l) = n + countLeadZeros l := by
  intro n
  induction n with
  | zero => intro l; simp
  | succ n ih =>
    intro l
    rw [show List.replicate (n + 1) 0 = 0 :: List.replicate n 0 from rfl]
    show countLeadZeros (0 :: (List.replicate n 0 ++ l)) = n + 1 + countLeadZeros l
    simp [countLeadZeros, ih]
    omega

theorem CLZ_drop : ∀ l : List Nat, (l.drop (countLeadZeros l)).head? ≠ some 0 := by
  intro l
  induction l with
  | nil => simp
  | cons d r ih =>
    by_cases hd : d = 0
    · subst hd
      show ((0 :: r).drop (countLeadZeros r + 1)).head? ≠ some 0
      simpa using ih
    · simp [countLeadZeros, hd]

theorem digits_map_isDigit (l : List Nat) (h : ∀ x ∈ l, x < 10) :
    ∀ b ∈ l.map (· + 0x30), isDigitB b = true := by
  intro b hb
  simp only [List.mem_map] at hb
  obtain ⟨d, hd, rfl⟩ := hb
  have := h d hd
  simp [isDigitB, inRange]
  omega

theorem replicate_isDigit (n : Nat) : ∀ b ∈ List.replicate n 0x30, isDigitB b = true := by
  intro b hb
  rw [List.eq_of_mem_replicate hb]
  rfl

theorem goNumBuild_eval (neg : Bool) (z1 z2 : Nat) (digits : List Nat) (expN : Int)
    (ip fp : List Nat)
    (hds : (ip ++ fp).map (· - 0x30) = List.replicate z1 0 ++ digits ++ List.replicate z2 0)
    (h0 : digits.head? ≠ some 0) (hL : digits.getLast? ≠ some 0) (hne : digits ≠ [])
    (hrange : ¬(309 ≤ (digits.length + z2 : Int) - 1 + expN - fp.length ∨
      (digits.length + z2 : Int) - 1 + expN - fp.length < -324)) :
    goNumBuild neg ip fp expN =
      some ⟨neg, digits, (digits.length + z2 : Int) - 1 + expN - fp.length⟩ := by
  unfold goNumBuild
  rw [hds]
  dsimp only
  have hlead : countLeadZeros (List.replicate z1 0 ++ digits ++ List.replicate z2 0) = z1 := by
    rw [List.append_assoc, clz_replicate_append]
    have : (digits ++ List.replicate z2 0).head? = digits.head? := by
      cases digits with
      | nil => exact absurd rfl hne
      | cons d r => rfl
    rw [clz_of_head_ne _ (by rw [this]; exact h0)]
    omega
  rw [hlead]
  have hcore0 : (List.replicate z1 0 ++ digits ++ List.replicate z2 0).drop z1 =
      digits ++ List.replicate z2 0 := by
    rw [List.append_assoc]
    simpa using List.drop_left (List.replicate z1 (0 : Nat)) (digits ++ List.replicate z2 0)
  rw [hcore0]
  have htrail : countLeadZeros (digits ++ List.replicate z2 0).reverse = z2 := by
    rw [List.reverse_append, List.reverse_replicate, clz_replicate_append]
    rw [clz_of_head_ne _ (by rw [List.head?_reverse]; exact hL)]
    omega
  rw [htrail]
  have hcore : (digits ++ List.replicate z2 0).take
      ((digits ++ List.replicate z2 0).length - z2) = digits := by
    have : (digits ++ List.replicate z2 0).length - z2 = digits.length := by
      simp
    rw [this, List.take_left]
  rw [hcore]
  rw [if_neg (by simpa using hne)]
  have hlen2 : ((digits ++ List.replicate z2 0).length : Int) - 1 + expN - (fp.length : Int) =
      (digits.length : Int) + (z2 : Int) - 1 + expN - (fp.length : Int) := by
    push_cast [List.length_append, List.length_replicate]
    ring
  rw [hlen2, if_neg hrange]

theorem pnFinish_eq (neg : Bool) (ip fp t3 : List Nat) :
    (match t3 with
     | [] => goNumBuild neg ip fp 0
     | e :: r =>
       if e = 0x65 ∨ e = 0x45 then
         let er : Bool × List Nat :=
           match r with
           | 0x2B :: r1 => (false, r1)
           | 0x2D :: r1 => (true, r1)
           | _ => (false, r)
         match spanDigits er.2 with
         | ([], _) => none
         | (ed, r2) =>
           if r2 = [] then
             goNumBuild neg ip fp
               (if er.1 then -(digitsVal ed : Int) else (digitsVal ed : Int))
           else none
       else none) = pnFinish neg ip fp t3 := by
  cases t3 with
  | nil => rfl
  | cons e r =>
    unfold pnFinish
    rw [if_neg (by simp)]
    dsimp only
    simp only [List.tail_cons, List.head?_cons]
    by_cases he : e = 0x65 ∨ e = 0x45
    · rw [if_pos he, if_pos (by rcases he with rfl | rfl <;> simp)]
      have her : (match r with
          | 0x2B :: r1 => ((false : Bool), r1)
          | 0x2D :: r1 => (true, r1)
          | _ => (false, r)) = pnExpSign r := by
        cases r with
        | nil => rfl
        | cons c rr =>
          by_cases hc1 : c = 0x2B
          · subst hc1; rfl
          · by_cases hc2 : c = 0x2D
            · subst hc2; rfl
            · rw [show pnExpSign (c :: rr) = (false, c :: rr) from by
                unfold pnExpSign
                rw [if_neg (by simp [hc1]), if_neg (by simp [hc2])]]
              split <;> simp_all
      rw [her]
      rcases hp : spanDigits (pnExpSign r).2 with ⟨ed, r2⟩
      cases ed with
      | nil => simp
      | cons d ds =>
        dsimp only
        rw [if_neg (List.cons_ne_nil d ds)]
    · have h1 : e ≠ 0x65 ∧ e ≠ 0x45 := by tauto
      rw [if_neg he, if_neg (by simp [h1.1, h1.2])]

theorem goNumParse_eq (t : List Nat) : goNumParse t = pnStages t := by
  unfold goNumParse pnStages
  dsimp only
  have hs : (match t with | 0x2D :: r => ((true : Bool), r) | _ => (false, t)) = pnSign t := by
    cases t with
    | nil => rfl
    | cons c r =>
      by_cases hc : c = 0x2D
      · subst hc; rfl
      · rw [show pnSign (c :: r) = (false, c :: r) from by
          unfold pnSign
          rw [if_neg (by simp [hc])]]
        split <;> simp_all
  rw [hs]
  rcases hp1 : spanDigits (pnSign t).2 with ⟨ip, t2⟩
  cases ip with
  | nil => simp
  | cons i0 ir =>
    dsimp only
    rw [if_neg (List.cons_ne_nil i0 ir)]
    by_cases hz : (i0 :: ir).length > 1 ∧ (i0 :: ir).headD 0 = 0x30
    · rw [if_pos hz, if_pos hz]
    · rw [if_neg hz, if_neg hz]
      cases t2 with
      | nil => rfl
      | cons c2 rest2 =>
        by_cases hc2 : c2 = 0x2E
        · subst hc2
          rw [if_pos (by simp)]
          simp only [List.tail_cons]
          rcases hp2 : spanDigits rest2 with ⟨f, r2⟩
          cases f with
          | nil => simp
          | cons f0 fr2 =>
            dsimp only
            rw [if_neg (List.cons_ne_nil f0 fr2)]
            rw [pnFinish_eq]
        · rw [if_neg (by simp [hc2])]
          have hfr : (match (c2 :: rest2 : List Nat) with
              | 0x2E :: r =>
                (match spanDigits r with
                 | ([], _) => none
                 | (f, r2) => some (f, r2))
              | _ => some (([] : List Nat), c2 :: rest2)) = some ([], c2 :: rest2) := by
            split <;> simp_all
          rw [hfr]
          have hpe := pnFinish_eq (pnSign t).1 (i0 :: ir) [] (c2 :: rest2)
          dsimp only
          dsimp only at hpe
          rw [hpe]

theorem clz_le : ∀ l : List Nat, countLeadZeros l ≤ l.length := by
  intro l
  induction l with
  | nil => simp [countLeadZeros]
  | cons d r ih =>
    by_cases hd : d = 0
    · subst hd
      show countLeadZeros r + 1 ≤ r.length + 1
      omega
    · simp [countLeadZeros, hd]

theorem head?_take_of_ne_nil (l : List Nat) (k : Nat) (h : l.take k ≠ []) :
    (l.take k).head? = l.head? := by
  cases l with
  | nil => simp at h
  | cons c r =>
    cases k with
    | zero => simp at h
    | succ k => rfl

theorem take_sub_clz_getLast (l : List Nat) :
    (l.take (l.length - countLeadZeros l.reverse)).getLast? ≠ some 0 := by
  have hle : countLeadZeros l.reverse ≤ l.length := by
    have := clz_le l.reverse
    simpa using this
  have h1 : (l.take (l.length - countLeadZeros l.reverse)).reverse =
      l.reverse.drop (countLeadZeros l.reverse) := by
    rw [List.reverse_take]
    congr 1
    omega
  rw [← List.head?_reverse, h1]
  exact CLZ_drop l.reverse

theorem goNumBuild_norm (neg : Bool) (ip fp : List Nat) (expN : Int) (d : GoDec)
    (h : goNumBuild neg ip fp expN = some d)
    (hip : ∀ b ∈ ip, isDigitB b = true) (hfp : ∀ b ∈ fp, isDigitB b = true) : normDec d := by
  unfold goNumBuild at h
  dsimp only at h
  have hds : ∀ x ∈ ((ip ++ fp).map (· - 0x30)), x < 10 := by
    intro x hx
    simp only [List.mem_map] at hx
    obtain ⟨b, hb, rfl⟩ := hx
    rcases List.mem_append.mp hb with hb2 | hb2
    · have := hip b hb2
      simp [isDigitB, inRange] at this
      omega
    · have := hfp b hb2
      simp [isDigitB, inRange] at this
      omega
  split at h
  · injection h with h2
    subst h2
    refine ⟨by simp, by simp, by simp, by simp, by norm_num, by norm_num⟩
  · split at h
    · cases h
    · injection h with h2
      subst h2
      constructor
      · intro x hx
        exact hds x (List.mem_of_mem_drop (List.mem_of_mem_take hx))
      refine ⟨?_, ?_, ?_, ?_, ?_⟩
      · rw [head?_take_of_ne_nil _ _ (by assumption)]
        exact CLZ_drop _
      · exact take_sub_clz_getLast _
      · intro hnil
        exact absurd hnil (by assumption)
      · dsimp only
        omega
      · dsimp only
        omega

theorem pnFinish_norm (neg : Bool) (ip fp t3 : List Nat) (d : GoDec)
    (h : pnFinish neg ip fp t3 = some d)
    (hip : ∀ b ∈ ip, isDigitB b = true) (hfp : ∀ b ∈ fp, isDigitB b = true) : normDec d := by
  unfold pnFinish at h
  dsimp only at h
  split at h
  · exact goNumBuild_norm neg ip fp 0 d h hip hfp
  · split at h
    · split at h
      · cases h
      · split at h
        · exact goNumBuild_norm neg ip fp _ d h hip hfp
        · cases h
    · cases h

theorem goNumParse_norm (t : List Nat) (d : GoDec) (h : goNumParse t = some d) : normDec d := by
  rw [goNumParse_eq] at h
  unfold pnStages at h
  dsimp only at h
  split at h
  · cases h
  · split at h
    · cases h
    · split at h
      · split at h
        · cases h
        · exact pnFinish_norm _ _ _ _ d h (spanDigits_all _) (spanDigits_all _)
      · exact pnFinish_norm _ _ _ _ d h (spanDigits_all _) (by simp)

theorem isDigitB_bounds (b : Nat) (h : isDigitB b = true) : 0x30 ≤ b ∧ b ≤ 0x39 := by
  simpa [isDigitB, inRange] using h

theorem stripPlus_eq_self (l : List Nat) (h : ∀ b ∈ l, b ≠ 0x2B) : stripPlus l = l := by
  unfold stripPlus
  rw [List.filter_eq_self]
  intro b hb
  simpa using h b hb

theorem pnFinish_full (neg : Bool) (ip fp : List Nat) (eo : Option (Bool × List Nat))
    (hed : ∀ es ed, eo = some (es, ed) →
      ed ≠ [] ∧ (∀ b ∈ ed, isDigitB b = true)) :
    pnFinish neg ip fp (epartOf eo) = goNumBuild neg ip fp (expOf eo) := by
  cases eo with
  | none => rfl
  | some p =>
    obtain ⟨es, ed⟩ := p
    obtain ⟨hne, hdig⟩ := hed es ed rfl
    obtain ⟨e0, er2, rfl⟩ : ∃ e0 er2, ed = e0 :: er2 := by
      cases ed with
      | nil => exact absurd rfl hne
      | cons e0 er2 => exact ⟨e0, er2, rfl⟩
    show pnFinish neg ip fp (0x65 :: ((if es then [0x2D] else []) ++ (e0 :: er2))) = _
    unfold pnFinish
    dsimp only
    rw [if_neg (by simp), if_pos (by simp)]
    simp only [List.tail_cons]
    have her : pnExpSign ((if es then [0x2D] else []) ++ e0 :: er2) = (es, e0 :: er2) := by
      cases es with
      | true =>
        show pnExpSign (0x2D :: e0 :: er2) = _
        unfold pnExpSign
        rw [if_neg (by simp),
          if_pos (show ((0x2D : Nat) :: e0 :: er2).head? = some 0x2D from rfl)]
        rfl
      | false =>
        show pnExpSign (e0 :: er2) = _
        have := isDigitB_bounds e0 (hdig e0 (by simp))
        unfold pnExpSign
        rw [if_neg (by simp; omega), if_neg (by simp; omega)]
    rw [her]
    dsimp only
    have hsp : spanDigits (e0 :: er2) = (e0 :: er2, []) := by
      have := spanDigits_append (e0 :: er2) [] hdig (by simp)
      simpa using this
    rw [hsp]
    dsimp only
    rw [if_neg (by simp), if_pos (show ([] : List Nat) = [] from rfl)]
    show goNumBuild neg ip fp _ = _
    rfl

theorem goNumParse_full (neg : Bool) (i0 : Nat) (irest fp : List Nat)
    (eo : Option (Bool × List Nat))
    (hip : ∀ b ∈ i0 :: irest, isDigitB b = true)
    (hlead : ¬((i0 :: irest).length > 1 ∧ i0 = 0x30))
    (hfp : ∀ b ∈ fp, isDigitB b = true)
    (hed : ∀ es ed, eo = some (es, ed) → ed ≠ [] ∧ (∀ b ∈ ed, isDigitB b = true)) :
    goNumParse ((if neg then [0x2D] else []) ++ (i0 :: irest) ++
        (if fp = [] then [] else 0x2E :: fp) ++ epartOf eo) =
      goNumBuild neg (i0 :: irest) fp (expOf eo) := by
  rw [goNumParse_eq]
  unfold pnStages
  have hi0 := isDigitB_bounds i0 (hip i0 (by simp))
  have hsign : pnSign ((if neg then [0x2D] else []) ++ (i0 :: irest) ++
      (if fp = [] then [] else 0x2E :: fp) ++ epartOf eo) =
      (neg, (i0 :: irest) ++ (if fp = [] then [] else 0x2E :: fp) ++ epartOf eo) := by
    cases neg with
    | true =>
      unfold pnSign
      rw [if_pos (by simp)]
      simp
    | false =>
      unfold pnSign
      rw [if_neg (by simp; omega)]
      simp
  rw [hsign]
  dsimp only
  have hstop2 : ∀ c, (epartOf eo).head? = some c → isDigitB c = false := by
    intro c hc
    cases eo with
    | none => simp [epartOf] at hc
    | some p =>
      obtain ⟨es, ed⟩ := p
      simp [epartOf] at hc
      subst hc
      rfl
  have hstop : ∀ c, ((if fp = [] then ([] : List Nat) else 0x2E :: fp) ++
      epartOf eo).head? = some c → isDigitB c = false := by
    intro c hc
    by_cases hfpe : fp = []
    · rw [if_pos hfpe, List.nil_append] at hc
      exact hstop2 c hc
    · rw [if_neg hfpe] at hc
      cases fp with
      | nil => exact absurd rfl hfpe
      | cons f0 fr =>
        simp at hc
        subst hc
        rfl
  rw [show (i0 :: irest) ++ (if fp = [] then ([] : List Nat) else 0x2E :: fp) ++ epartOf eo =
      (i0 :: irest) ++ ((if fp = [] then ([] : List Nat) else 0x2E :: fp) ++ epartOf eo) from by
    rw [List.append_assoc]]
  rw [spanDigits_append (i0 :: irest) _ hip hstop]
  dsimp only
  rw [if_neg (List.cons_ne_nil i0 irest)]
  rw [if_neg (by simpa using hlead)]
  by_cases hfpe : fp = []
  · subst hfpe
    rw [show (if ([] : List Nat) = [] then ([] : List Nat) else 0x2E :: ([] : List Nat)) =
      ([] : List Nat) from rfl]
    simp only [List.nil_append]
    have hnotdot : (epartOf eo).head? ≠ some 0x2E := by
      cases eo with
      | none => simp [epartOf]
      | some p => obtain ⟨es, ed⟩ := p; simp [epartOf]
    rw [if_neg hnotdot]
    exact pnFinish_full neg (i0 :: irest) [] eo hed
  · rw [if_neg hfpe]
    rw [if_pos (show ((0x2E :: fp) ++ epartOf eo).head? = some 0x2E from by simp)]
    rw [show ((0x2E :: fp) ++ epartOf eo).tail = fp ++ epartOf eo from by simp]
    rw [spanDigits_append fp _ hfp hstop2]
    dsimp only
    rw [if_neg hfpe]
    exact pnFinish_full neg (i0 :: irest) fp eo hed

theorem no_plus_digits (l : List Nat) (h : ∀ x ∈ l, x < 10) :
    ∀ b ∈ l.map (· + 0x30), b ≠ 0x2B := by
  intro b hb
  simp only [List.mem_map] at hb
  obtain ⟨x, hx, rfl⟩ := hb
  omega

theorem no_plus_natDecB (n : Nat) : ∀ b ∈ natDecB n, b ≠ 0x2B := by
  intro b hb
  have := isDigitB_bounds b (natDecB_digits n b hb)
  omega

theorem stripPlus_append (a b : List Nat) :
    stripPlus (a ++ b) = stripPlus a ++ stripPlus b := by
  unfold stripPlus
  rw [List.filter_append]

theorem stripPlus_sign (neg : Bool) :
    stripPlus (if neg then [0x2D] else []) = (if neg then [0x2D] else []) := by
  cases neg <;> rfl

theorem render_stripped_shape (d : GoDec) (hn : normDec d) :
    ∃ i0 irest fp eo,
      stripPlus (goNumRender d) =
        (if d.neg then [0x2D] else []) ++ (i0 :: irest) ++
          (if fp = [] then [] else 0x2E :: fp) ++ epartOf eo ∧
      (∀ b ∈ i0 :: irest, isDigitB b = true) ∧
      ¬((i0 :: irest).length > 1 ∧ i0 = 0x30) ∧
      (∀ b ∈ fp, isDigitB b = true) ∧
      (∀ es ed, eo = some (es, ed) → ed ≠ [] ∧ (∀ b ∈ ed, isDigitB b = true)) ∧
      goNumBuild d.neg (i0 :: irest) fp (expOf eo) = some d := by
  obtain ⟨neg, digits, e⟩ := d
  obtain ⟨hlt, h0, hL, hz, hlo, hhi⟩ := hn
  dsimp only at hlt h0 hL hz hlo hhi ⊢
  cases digits with
  | nil =>
    have he : e = 0 := hz rfl
    subst he
    refine ⟨0x30, [], [], none, ?_, by decide, by decide, by simp, by simp, ?_⟩
    · cases neg <;> rfl
    · rfl
  | cons d1 tl =>
    have hd1 : d1 ≠ 0 := by
      intro hc
      exact h0 (by simp [hc])
    have hd1b : d1 < 10 := hlt d1 (by simp)
    have htllt : ∀ x ∈ tl, x < 10 := fun x hx => hlt x (by simp [hx])
    have hi0dig : isDigitB (d1 + 0x30) = true := by
      simp [isDigitB, inRange]
      omega
    unfold goNumRender
    dsimp only
    by_cases hbig : 21 ≤ e ∨ e ≤ -7
    · rw [if_pos hbig]
      have hedig := natDecB_digits e.natAbs
      have hedne := natDecB_ne_nil e.natAbs
      have hfmap : stripPlus (if tl = [] then []
          else 0x2E :: tl.map (· + 0x30)) =
          (if tl.map (· + 0x30) = [] then [] else 0x2E :: tl.map (· + 0x30)) := by
        cases tl with
        | nil => rfl
        | cons t1 ts =>
          rw [if_neg (by simp), if_neg (by simp)]
          show stripPlus (0x2E :: (t1 :: ts).map (· + 0x30)) = _
          unfold stripPlus
          rw [List.filter_cons_of_pos (by simp)]
          show 0x2E :: stripPlus ((t1 :: ts).map (· + 0x30)) = _
          rw [stripPlus_eq_self _ (no_plus_digits (t1 :: ts) htllt)]
      refine ⟨d1 + 0x30, [], tl.map (· + 0x30),
        some (decide (e < 0), natDecB e.natAbs), ?_, ?_, by simp, ?_, ?_, ?_⟩
      · rw [stripPlus_append, stripPlus_append, stripPlus_append, stripPlus_append,
          stripPlus_append, stripPlus_sign, hfmap]
        rw [stripPlus_eq_self [d1 + 0x30] (by intro b hb; simp at hb; omega)]
        rw [show stripPlus [0x65] = [0x65] from rfl]
        rw [stripPlus_eq_self (natDecB e.natAbs) (no_plus_natDecB e.natAbs)]
        by_cases hneg : e < 0
        · rw [if_pos hneg, show stripPlus [0x2D] = [0x2D] from rfl]
          rw [show decide (e < 0) = true from by simpa using hneg]
          show _ = _ ++ _ ++ _ ++ (0x65 :: ([0x2D] ++ natDecB e.natAbs))
          simp [List.append_assoc]
        · rw [if_neg hneg, show stripPlus [0x2B] = [] from rfl]
          rw [show decide (e < 0) = false from by simpa using hneg]
          show _ = _ ++ _ ++ _ ++ (0x65 :: ([] ++ natDecB e.natAbs))
          simp [List.append_assoc]
      · intro b hb
        simp at hb
        subst hb
        exact hi0dig
      · exact digits_map_isDigit tl htllt
      · intro es ed hso
        injection hso with hso2
        injection hso2 with hes hed2
        subst hed2
        exact ⟨hedne, hedig⟩
      · have hds : (([d1 + 0x30] ++ tl.map (· + 0x30)).map (· - 0x30)) =
            List.replicate 0 0 ++ (d1 :: tl) ++ List.replicate 0 0 := by
          show ((d1 :: tl).map (· + 0x30)).map (· - 0x30) = _
          rw [map_add_sub_digits]
          simp
        have hexp : expOf (some (decide (e < 0), natDecB e.natAbs)) = e := by
          show (if decide (e < 0) then -(digitsVal (natDecB e.natAbs) : Int)
            else (digitsVal (natDecB e.natAbs) : Int)) = e
          rw [digitsVal_natDecB]
          by_cases hneg : e < 0
          · rw [show decide (e < 0) = true from by simpa using hneg]
            show -(e.natAbs : Int) = e
            omega
          · rw [show decide (e < 0) = false from by simpa using hneg]
            show (e.natAbs : Int) = e
            omega
        rw [hexp]
        rw [goNumBuild_eval neg 0 0 (d1 :: tl) e [d1 + 0x30] (tl.map (· + 0x30)) hds
          h0 hL (by simp) (by simp; omega)]
        rw [show ((d1 :: tl).length : Int) + ((0 : Nat) : Int) - 1 + e -
            ((tl.map (· + 0x30)).length : Int) = e from by
          simp only [List.length_cons, List.length_map]
          push_cast
          ring]
    · rw [if_neg hbig]
      have hsome : ∀ (ds : List Nat) (x y : Int), x = y →
          (some ⟨neg, ds, x⟩ : Option GoDec) = some ⟨neg, ds, y⟩ := by
        intro ds x y h
        rw [h]
      by_cases hint : ((d1 :: tl).length : Int) - 1 ≤ e
      · rw [if_pos hint]
        refine ⟨d1 + 0x30,
          tl.map (· + 0x30) ++ List.replicate (e - (((d1 :: tl).length : Int) - 1)).toNat 0x30,
          [], none, ?_, ?_, ?_, by simp, by simp, ?_⟩
        · rw [stripPlus_eq_self]
          · show _ = _ ++ ((d1 + 0x30) :: (tl.map (· + 0x30) ++ _)) ++ [] ++ []
            simp [List.append_assoc]
          · intro b hb
            simp only [List.mem_append] at hb
            rcases hb with (hb | hb) | hb
            · cases neg <;> simp_all
            · obtain ⟨x, hx, rfl⟩ := List.mem_map.mp hb
              have := hlt x hx
              omega
            · have := List.eq_of_mem_replicate hb
              omega
        · intro b hb
          rcases List.mem_cons.mp hb with rfl | hb2
          · exact hi0dig
          · rcases List.mem_append.mp hb2 with hb3 | hb3
            · exact digits_map_isDigit tl htllt b hb3
            · exact replicate_isDigit _ b hb3
        · intro hc
          have := hc.2
          omega
        · have hds : (((d1 + 0x30) :: (tl.map (· + 0x30) ++
              List.replicate (e - (((d1 :: tl).length : Int) - 1)).toNat 0x30) ++ []).map
                (· - 0x30)) =
              List.replicate 0 0 ++ (d1 :: tl) ++
                List.replicate (e - (((d1 :: tl).length : Int) - 1)).toNat 0 := by
            simp only [List.append_nil, List.map_cons, List.map_append, map_sub_replicate]
            rw [show (tl.map (· + 0x30)).map (· - 0x30) = tl from map_add_sub_digits tl]
            simp
          rw [show expOf none = 0 from rfl,
            goNumBuild_eval neg 0 (e - (((d1 :: tl).length : Int) - 1)).toNat (d1 :: tl) 0
              ((d1 + 0x30) :: (tl.map (· + 0x30) ++
                List.replicate (e - (((d1 :: tl).length : Int) - 1)).toNat 0x30)) [] hds
              h0 hL (by simp)
              (by
                have hA : (d1 :: tl).length = tl.length + 1 := rfl
                have hB : ([] : List Nat).length = 0 := rfl
                omega)]
          apply hsome
          have hA : (d1 :: tl).length = tl.length + 1 := rfl
          have hB : ([] : List Nat).length = 0 := rfl
          omega
      · rw [if_neg hint]
        by_cases hnn : 0 ≤ e
        · rw [if_pos hnn]
          have htake : (d1 :: tl).take (e.toNat + 1) = d1 :: tl.take e.toNat := rfl
          have hdrop : (d1 :: tl).drop (e.toNat + 1) = tl.drop e.toNat := rfl
          have hlen2 : e.toNat < tl.length := by
            simp only [List.length_cons] at hint
            omega
          have hfpne : (tl.drop e.toNat).map (· + 0x30) ≠ [] := by
            simp
            omega
          refine ⟨d1 + 0x30, (tl.take e.toNat).map (· + 0x30),
            (tl.drop e.toNat).map (· + 0x30), none, ?_, ?_, ?_, ?_, by simp, ?_⟩
          · rw [stripPlus_eq_self]
            · rw [htake, hdrop, if_neg hfpne]
              show _ = _ ++ ((d1 + 0x30) :: (tl.take e.toNat).map (· + 0x30)) ++
                (0x2E :: (tl.drop e.toNat).map (· + 0x30)) ++ []
              simp [List.append_assoc]
            · intro b hb
              rw [htake, hdrop] at hb
              simp only [List.mem_append] at hb
              rcases hb with ((hb | hb) | hb) | hb
              · cases neg <;> simp_all
              · obtain ⟨x, hx, rfl⟩ := List.mem_map.mp hb
                rcases List.mem_cons.mp hx with rfl | hx2
                · omega
                · have := htllt x (List.mem_of_mem_take hx2)
                  omega
              · simp_all
              · obtain ⟨x, hx, rfl⟩ := List.mem_map.mp hb
                have := htllt x (List.mem_of_mem_drop hx)
                omega
          · intro b hb
            rcases List.mem_cons.mp hb with rfl | hb2
            · exact hi0dig
            · exact digits_map_isDigit _ (fun x hx => htllt x (List.mem_of_mem_take hx)) b hb2
          · intro hc
            have := hc.2
            omega
          · exact digits_map_isDigit _ (fun x hx => htllt x (List.mem_of_mem_drop hx))
          · have hds : (((d1 + 0x30) :: (tl.take e.toNat).map (· + 0x30) ++
                (tl.drop e.toNat).map (· + 0x30)).map (· - 0x30)) =
                List.replicate 0 0 ++ (d1 :: tl) ++ List.replicate 0 0 := by
              simp only [List.cons_append, List.map_cons, List.map_append]
              rw [show ((tl.take e.toNat).map (· + 0x30)).map (· - 0x30) = tl.take e.toNat from
                map_add_sub_digits _]
              rw [show ((tl.drop e.toNat).map (· + 0x30)).map (· - 0x30) = tl.drop e.toNat from
                map_add_sub_digits _]
              simp [List.take_append_drop]
            rw [show expOf none = 0 from rfl,
              goNumBuild_eval neg 0 0 (d1 :: tl) 0
                ((d1 + 0x30) :: (tl.take e.toNat).map (· + 0x30))
                ((tl.drop e.toNat).map (· + 0x30)) hds h0 hL (by simp)
                (by
                  have hA : (d1 :: tl).length = tl.length + 1 := rfl
                  have hC : ((tl.drop e.toNat).map (· + 0x30)).length = tl.length - e.toNat := by
                    simp
                  omega)]
            apply hsome
            have hA : (d1 :: tl).length = tl.length + 1 := rfl
            have hC : ((tl.drop e.toNat).map (· + 0x30)).length = tl.length - e.toNat := by
              simp
            omega
        · rw [if_neg hnn]
          have hfpne : List.replicate (-e - 1).toNat 0x30 ++ (d1 :: tl).map (· + 0x30) ≠ [] := by
            simp
          refine ⟨0x30, [], List.replicate (-e - 1).toNat 0x30 ++ (d1 :: tl).map (· + 0x30),
            none, ?_, by decide, by decide, ?_, by simp, ?_⟩
          · rw [stripPlus_eq_self]
            · rw [if_neg hfpne]
              show _ = _ ++ [0x30] ++
                (0x2E :: (List.replicate (-e - 1).toNat 0x30 ++ (d1 :: tl).map (· + 0x30))) ++ []
              simp [List.append_assoc]
            · intro b hb
              simp only [List.mem_append] at hb
              rcases hb with ((hb | hb) | hb) | hb
              · cases neg <;> simp_all
              · simp at hb
                rcases hb with rfl | rfl <;> omega
              · have := List.eq_of_mem_replicate hb
                omega
              · obtain ⟨x, hx, rfl⟩ := List.mem_map.mp hb
                have := hlt x hx
                omega
          · intro b hb
            rcases List.mem_append.mp hb with hb2 | hb2
            · exact replicate_isDigit _ b hb2
            · exact digits_map_isDigit _ hlt b hb2
          · have hds : (((0x30 : Nat) :: [] ++
                (List.replicate (-e - 1).toNat 0x30 ++ (d1 :: tl).map (· + 0x30))).map
                  (· - 0x30)) =
                List.replicate ((-e - 1).toNat + 1) 0 ++ (d1 :: tl) ++ List.replicate 0 0 := by
              rw [show ((0x30 : Nat) :: [] ++
                  (List.replicate (-e - 1).toNat 0x30 ++ (d1 :: tl).map (· + 0x30))) =
                0x30 :: (List.replicate (-e - 1).toNat 0x30 ++ (d1 :: tl).map (· + 0x30)) from by
                simp]
              rw [List.map_cons, List.map_append, map_sub_replicate,
                show ((d1 :: tl).map (· + 0x30)).map (· - 0x30) = d1 :: tl from
                  map_add_sub_digits _]
              simp [List.replicate_succ]
            rw [show expOf none = 0 from rfl,
              goNumBuild_eval neg ((-e - 1).toNat + 1) 0 (d1 :: tl) 0 ((0x30 : Nat) :: [])
                (List.replicate (-e - 1).toNat 0x30 ++ (d1 :: tl).map (· + 0x30)) hds
                h0 hL (by simp)
                (by
                  have hA : (d1 :: tl).length = tl.length + 1 := rfl
                  have hD : (List.replicate (-e - 1).toNat 0x30 ++
                      (d1 :: tl).map (· + 0x30)).length = (-e - 1).toNat + (tl.length + 1) := by
                    simp
                  omega)]
            apply hsome
            have hA : (d1 :: tl).length = tl.length + 1 := rfl
            have hD : (List.replicate (-e - 1).toNat 0x30 ++
                (d1 :: tl).map (· + 0x30)).length = (-e - 1).toNat + (tl.length + 1) := by
              simp
            omega

theorem goNumRender_parse (d : GoDec) (hn : normDec d) :
    goNumParse (stripPlus (goNumRender d)) = some d := by
  obtain ⟨i0, irest, fp, eo, htext, hip, hlead, hfp, hed, hbuild⟩ :=
    render_stripped_shape d hn
  rw [htext, goNumParse_full d.neg i0 irest fp eo hip hlead hfp hed, hbuild]

theorem canon_reparse (t : List Nat) (hc : GoNumCanon t) :
    ∃ d, goNumParse t = some d ∧ goNumRender d = t ∧
      goNumParse (stripPlus t) = some d := by
  unfold GoNumCanon goNumReM at hc
  cases hp : goNumParse t with
  | none => rw [hp] at hc; cases hc
  | some d =>
    rw [hp] at hc
    have hr : goNumRender d = t := by
      simpa using hc
    refine ⟨d, rfl, hr, ?_⟩
    rw [← hr]
    exact goNumRender_parse d (goNumParse_norm t d hp)

theorem lexConsume_epart (st : NumState) (eo : Option (Bool × List Nat)) (rest : List Nat)
    (hst : st = .intS ∨ st = .fracS)
    (hed : ∀ es ed, eo = some (es, ed) → (∀ b ∈ ed, isDigitB b = true))
    (hstop : ∀ c, rest.head? = some c → c = 0x2C ∨ c = 0x29 ∨ c = 0x3A) :
    lexConsume st [0x2D] (epartOf eo ++ rest) = (epartOf eo).length := by
  cases eo with
  | none =>
    show lexConsume st [0x2D] ([] ++ rest) = 0
    rw [List.nil_append]
    exact lexConsume_stop st [0x2D] rest (Or.inr rfl) hstop
  | some p =>
    obtain ⟨es, ed⟩ := p
    have hdig := hed es ed rfl
    show lexConsume st [0x2D] ((0x65 :: ((if es then [0x2D] else []) ++ ed)) ++ rest) =
      (0x65 :: ((if es then [0x2D] else []) ++ ed)).length
    rw [List.cons_append, lexConsume_step]
    have h65d : isDigitB 0x65 = false := rfl
    have h65s : ([0x2D] : List Nat).contains 0x65 = false := rfl
    rw [if_neg (by simp [h65d]), if_neg (by simp)]
    have hrest : lexConsume .expS [0x2D] (((if es then [0x2D] else []) ++ ed) ++ rest) =
        ((if es then [0x2D] else []) ++ ed).length := by
      cases es with
      | true =>
        rw [show (if (true : Bool) then [0x2D] else ([] : List Nat)) = [0x2D] from rfl]
        rw [show ([0x2D] ++ ed) ++ rest = 0x2D :: (ed ++ rest) from by simp]
        rw [lexConsume_step]
        rw [if_neg (by simp [isDigitB, inRange]), if_pos (by simp)]
        rw [lexConsume_digits ed .expS [] rest hdig]
        rw [lexConsume_stop .expS [] rest (Or.inl rfl) hstop]
        simp
      | false =>
        rw [show (if (false : Bool) then [0x2D] else ([] : List Nat)) = [] from rfl]
        simp only [List.nil_append]
        rw [lexConsume_digits ed .expS [0x2D] rest hdig]
        rw [lexConsume_stop .expS [0x2D] rest (Or.inr rfl) hstop]
        simp
    rcases hst with rfl | rfl
    · dsimp only
      rw [if_neg (by norm_num), if_pos (show (0x65 : Nat) = 0x65 from rfl)]
      rw [List.append_assoc] at hrest ⊢
      rw [hrest]
      simp
    · dsimp only
      rw [if_pos (show (0x65 : Nat) = 0x65 from rfl)]
      rw [List.append_assoc] at hrest ⊢
      rw [hrest]
      simp

theorem lexConsume_shape (ds1 fp : List Nat) (eo : Option (Bool × List Nat)) (rest : List Nat)
    (hds1 : ∀ b ∈ ds1, isDigitB b = true)
    (hfp : ∀ b ∈ fp, isDigitB b = true)
    (hed : ∀ es ed, eo = some (es, ed) → (∀ b ∈ ed, isDigitB b = true))
    (hstop : ∀ c, rest.head? = some c → c = 0x2C ∨ c = 0x29 ∨ c = 0x3A) :
    lexConsume .intS [0x2D]
        ((ds1 ++ (if fp = [] then [] else 0x2E :: fp) ++ epartOf eo) ++ rest) =
      (ds1 ++ (if fp = [] then [] else 0x2E :: fp) ++ epartOf eo).length := by
  rw [List.append_assoc, List.append_assoc, List.append_assoc]
  rw [lexConsume_digits ds1 .intS [0x2D] _ hds1]
  by_cases hfpe : fp = []
  · subst hfpe
    rw [show (if ([] : List Nat) = [] then ([] : List Nat) else 0x2E :: []) = [] from rfl]
    rw [List.nil_append]
    rw [lexConsume_epart .intS eo rest (Or.inl rfl) hed hstop]
    simp
  · rw [if_neg hfpe, List.cons_append, lexConsume_step]
    rw [if_neg (by simp [isDigitB, inRange]), if_neg (by simp)]
    dsimp only
    rw [if_pos (show (0x2E : Nat) = 0x2E from rfl)]
    rw [lexConsume_digits fp .fracS [0x2D] _ hfp]
    rw [lexConsume_epart .fracS eo rest (Or.inr rfl) hed hstop]
    simp

end Rison
